import Mathlib

/-!
Verification of the commentary-block plugin (src/main.ts) against its
natural-language specification.

Modelling conventions:
* Text is modelled as `List Char`.  JavaScript string indices become list
  positions; `String.substring`/`take`/`drop` clamping is reproduced with
  `Int.toNat`.
* The editor document is modelled as its list of lines, i.e. the result of
  the `editor.getValue().split("\n")` performed at the top of each editing
  helper.
* JavaScript `Map`/object assignment is modelled as an insertion-ordered
  association list with overwrite-on-set (`mapSet`); `Array.prototype.sort`
  with a numeric comparator is modelled by a stable insertion sort (all
  comparator keys that arise are distinct, so the result is the unique
  sorted permutation).
* The regular expressions of the source are transcribed operationally,
  including the backtracking behaviour of `\s*(.+)` and of the
  multi-line-definition continuation group.
-/

/-! ## Character classes of the JavaScript regex dialect -/

/-- JavaScript regex `\s` (whitespace, including line terminators). -/
def jsWs (c : Char) : Bool :=
  c = ' ' || c = '\t' || c = '\n' || c = '\x0b' || c = '\x0c' || c = '\r' ||
  c = '\u00A0' || c = '\u1680' ||
  ('\u2000' ≤ c && c ≤ '\u200A') ||
  c = '\u2028' || c = '\u2029' || c = '\u202F' || c = '\u205F' ||
  c = '\u3000' || c = '\uFEFF'

/-- JavaScript regex line terminators (what `$` with the `m` flag and `.`
without the `s` flag care about). -/
def lineTerm (c : Char) : Bool :=
  c = '\n' || c = '\r' || c = '\u2028' || c = '\u2029'

/-- JavaScript regex `.` without the `s` flag: any char except a line
terminator. -/
def jsDot (c : Char) : Bool := !(lineTerm c)

/-- JavaScript regex `\w`: ASCII letters, digits, underscore. -/
def isWordChar (c : Char) : Bool :=
  ('a' ≤ c && c ≤ 'z') || ('A' ≤ c && c ≤ 'Z') || ('0' ≤ c && c ≤ '9') || c = '_'

/-! ## Small string/list utilities mirroring JavaScript primitives -/

/-- Leading-whitespace strip, helper for `trimJS`. -/
def trimLeftJS : List Char → List Char
  | [] => []
  | c :: cs => if jsWs c then trimLeftJS cs else c :: cs

/-- JavaScript `String.prototype.trim`. -/
def trimJS (s : List Char) : List Char :=
  (trimLeftJS (trimLeftJS s).reverse).reverse

/-- `parseInt` on a nonempty digit string. -/
def digitsToNat (ds : List Char) : Nat :=
  ds.foldl (fun a c => 10 * a + (c.toNat - 48)) 0

/-- JavaScript `String(n)` for a natural number (decimal digits). -/
def natChars (n : Nat) : List Char := Nat.toDigits 10 n

/-- JavaScript `String.prototype.split("\n")`. -/
def splitLines : List Char → List (List Char)
  | [] => [[]]
  | c :: t =>
    if c = '\n' then [] :: splitLines t
    else
      match splitLines t with
      | h :: r => (c :: h) :: r
      | [] => [[c]]

/-- JavaScript `String.prototype.split(",")`. -/
def splitCommas : List Char → List (List Char)
  | [] => [[]]
  | c :: t =>
    if c = ',' then [] :: splitCommas t
    else
      match splitCommas t with
      | h :: r => (c :: h) :: r
      | [] => [[c]]

/-- Position of the first occurrence of `n` in `l` (JS `Array.indexOf` on a
list that contains `n`). -/
def posOf (n : Nat) : List Nat → Nat
  | [] => 0
  | m :: ms => if m = n then 0 else posOf n ms + 1

/-- Insertion-ordered set accumulation: the contents of a JS `Set` after
inserting the elements of the second argument, starting from `acc`. -/
def dedupAux (acc : List Nat) : List Nat → List Nat
  | [] => acc
  | n :: ns => dedupAux (if n ∈ acc then acc else acc ++ [n]) ns

/-- Distinct elements of `l` in order of first occurrence (a JS `Set` built
by inserting the elements of `l` in order, read back with `Array.from`). -/
def dedupFirst (l : List Nat) : List Nat := dedupAux [] l

/-- JS `Map.prototype.set`: overwrite in place, else append. -/
def mapSet (m : List (Nat × List Char)) (k : Nat) (v : List Char) :
    List (Nat × List Char) :=
  if m.any (fun p => p.1 = k) then
    m.map (fun p => if p.1 = k then (k, v) else p)
  else m ++ [(k, v)]

/-- JS `Map.prototype.get`. -/
def mapGet (m : List (Nat × List Char)) (k : Nat) : Option (List Char) :=
  (m.find? (fun p => p.1 = k)).map (·.2)

/-- Insert into a list sorted w.r.t. `le`. -/
def insertSorted (le : α → α → Bool) (x : α) : List α → List α
  | [] => [x]
  | y :: ys => if le x y then x :: y :: ys else y :: insertSorted le x ys

/-- Stable insertion sort; models `Array.prototype.sort` with a numeric
comparator (all keys that arise below are distinct). -/
def sortBy (le : α → α → Bool) (l : List α) : List α :=
  l.foldr (insertSorted le) []

/-! ## The footnote reference pattern (src/main.ts line 470):
the regex `\$\[(\d+)\]` with flag `g`. -/

/-- One occurrence of a reference marker inside commentary text
("FootnoteReference" of the data model): author-assigned number, character
offset of the match, and length of the matched string. -/
structure RefOcc where
  num : Nat
  index : Nat
  len : Nat
deriving DecidableEq, Repr

/-- Try to match the regex at the head of the suffix; on success return the
digit group.  The matched string is `"$[" ++ digits ++ "]"`. -/
def tryRefAt : List Char → Option (List Char)
  | '$' :: '[' :: r =>
    let ds := r.takeWhile Char.isDigit
    if ds.isEmpty then none
    else
      match r.drop ds.length with
      | ']' :: _ => some ds
      | _ => none
  | _ => none

/-- `exec` loop of the global reference regex.  `i` is the absolute position
of the head of the suffix; `skip` is the number of positions still inside
the previous match (JS resumes the scan at `lastIndex`). -/
def scanRefsAux : List Char → Nat → Nat → List RefOcc
  | [], _, _ => []
  | _ :: rest, i, skip + 1 => scanRefsAux rest (i + 1) skip
  | c :: rest, i, 0 =>
    match tryRefAt (c :: rest) with
    | some ds =>
      ⟨digitsToNat ds, i, ds.length + 3⟩ :: scanRefsAux rest (i + 1) (ds.length + 2)
    | none => scanRefsAux rest (i + 1) 0

/-- All reference occurrences in source order (src/main.ts lines 470-483). -/
def scanRefs (s : List Char) : List RefOcc := scanRefsAux s 0 0

/-! ## The footnote definition pattern (src/main.ts lines 457-458):
the regex `\$\[(\d+)\]:\s*(.+(?:\n(?!\$\[\d+\]:|\n\s*$).*)*)` with flags
`gm`.  Note the pattern is NOT anchored at line start. -/

/-- Lookahead alternative `\$\[\d+\]:` of the continuation group. -/
def lookDef : List Char → Bool
  | '$' :: '[' :: r =>
    let ds := r.takeWhile Char.isDigit
    !ds.isEmpty &&
      (match r.drop ds.length with
       | ']' :: ':' :: _ => true
       | _ => false)
  | _ => false

/-- `\s*$` with the `m` flag: from this position, an end of line is
reachable through whitespace only (backtracking semantics). -/
def wsThenEol : List Char → Bool
  | [] => true
  | c :: r => if lineTerm c then true else if jsWs c then wsThenEol r else false

/-- Lookahead alternative `\n\s*$` of the continuation group. -/
def lookBlank : List Char → Bool
  | '\n' :: u => wsThenEol u
  | _ => false

/-- `\s*(.+` start of the capture: greedy whitespace skip with backtracking,
then a maximal nonempty run of `.` characters.  Returns the number of
whitespace characters skipped, the first captured line, and the rest. -/
def matchWsDotPlus : List Char → Option (Nat × List Char × List Char)
  | [] => none
  | c :: cs =>
    if jsWs c then
      match matchWsDotPlus cs with
      | some (k, l, r) => some (k + 1, l, r)
      | none =>
        if jsDot c then some (0, (c :: cs).takeWhile jsDot, (c :: cs).dropWhile jsDot)
        else none
    else
      if jsDot c then some (0, (c :: cs).takeWhile jsDot, (c :: cs).dropWhile jsDot)
      else none

/-- The continuation group `(?:\n(?!\$\[\d+\]:|\n\s*$).*)*`: consume further
lines while the negative lookahead allows it.  Returns the consumed capture
suffix and the remaining text. -/
def contLines : List Char → List Char × List Char
  | [] => ([], [])
  | c :: t =>
    if c = '\n' then
      if lookDef t || lookBlank t then ([], c :: t)
      else
        match contLines t with
        | (a, r) => ('\n' :: a, r)
    else if jsDot c then
      match contLines t with
      | (a, r) => (c :: a, r)
    else ([], c :: t)

/-- Try to match the whole definition pattern at the head of the suffix.
Returns (number, raw capture group 2, total match length). -/
def tryDefAt (s : List Char) : Option (Nat × List Char × Nat) :=
  match s with
  | '$' :: '[' :: r =>
    let ds := r.takeWhile Char.isDigit
    if ds.isEmpty then none
    else
      match r.drop ds.length with
      | ']' :: ':' :: r2 =>
        match matchWsDotPlus r2 with
        | some (k, line1, r3) =>
          let cap := line1 ++ (contLines r3).1
          some (digitsToNat ds, cap, ds.length + 4 + k + cap.length)
        | none => none
      | _ => none
  | _ => none

/-- `exec` loop of the global definition regex, with trimming of each
captured body (src/main.ts lines 461-467). -/
def parseDefsAux : List Char → Nat → List (Nat × List Char)
  | [], _ => []
  | _ :: rest, skip + 1 => parseDefsAux rest skip
  | c :: rest, 0 =>
    match tryDefAt (c :: rest) with
    | some (n, cap, len) => (n, trimJS cap) :: parseDefsAux rest (len - 1)
    | none => parseDefsAux rest 0

/-- All `(number, trimmed body)` definition matches in match order. -/
def parseDefsList (s : List Char) : List (Nat × List Char) := parseDefsAux s 0

/-- The `footnoteDefinitions` map: the matches inserted into a `Map` in
order, later `set`s overwriting earlier ones. -/
def buildDefsMap (s : List Char) : List (Nat × List Char) :=
  (parseDefsList s).foldl (fun m p => mapSet m p.1 p.2) []

/-! ## processFootnotes (src/main.ts lines 448-531) -/

/-- The internal placeholder token for a resolved display index. -/
def placeholder (n : Nat) : List Char :=
  "\x7b\x7bfnref:".data ++ natChars n ++ "\x7d\x7d".data

/-- The synthetic body used when a reference has no definition. -/
def missingMsg (n : Nat) : List Char :=
  "Missing footnote definition for ".data ++ natChars n

/-- `footnoteDefinitions.get(ref.num) || missing` — note JS `||`, so an
empty definition body also falls back to the synthetic message. -/
def contentFor (defs : List (Nat × List Char)) (n : Nat) : List Char :=
  match mapGet defs n with
  | some v => if v.isEmpty then missingMsg n else v
  | none => missingMsg n

/-- `references.find((r) => r.num === a)?.index ?? 0`. -/
def firstIndexOf (references : List RefOcc) (a : Nat) : Nat :=
  match references.find? (fun r => r.num = a) with
  | some r => r.index
  | none => 0

/-- State of the `references.forEach` loop. -/
structure PFState where
  footnotesList : List (List Char)
  used : List Nat
  text : List Char
  offset : Int
deriving DecidableEq, Repr

/-- One iteration of the `references.forEach` loop (src/main.ts 493-528). -/
def pfStep (defs : List (Nat × List Char)) (references : List RefOcc)
    (st : PFState) (ref : RefOcc) : PFState :=
  let pushed :=
    if ref.num ∈ st.used then (st.footnotesList, st.used)
    else (st.footnotesList ++ [contentFor defs ref.num], st.used ++ [ref.num])
  let footnoteIndex :=
    posOf ref.num
      (sortBy (fun a b => firstIndexOf references a ≤ firstIndexOf references b)
        pushed.2) + 1
  let replacement := placeholder footnoteIndex
  let actualIndex : Int := (ref.index : Int) + st.offset
  let text' :=
    st.text.take actualIndex.toNat ++ replacement ++
      st.text.drop (actualIndex + (ref.len : Int)).toNat
  ⟨pushed.1, pushed.2, text', st.offset + (replacement.length : Int) - (ref.len : Int)⟩

/-- `processFootnotes(commentaryText, footnotesText)`: returns the
placeholder-substituted commentary and the resolved footnote bodies in
display order.  (The `blockId` parameter of the source only namespaces DOM
ids and plays no role in the computation.) -/
def processFootnotes (commentaryText footnotesText : List Char) :
    List Char × List (List Char) :=
  let defs := buildDefsMap footnotesText
  let refs := sortBy (fun a b => a.index ≤ b.index) (scanRefs commentaryText)
  let st := refs.foldl (pfStep defs refs) ⟨[], [], commentaryText, 0⟩
  (st.text, st.footnotesList)

/-! ## parseFootnoteContent (src/main.ts lines 533-539):
the regex `^(\w+):(.*)$` with flag `s`, tested against
`FOOTNOTE_TYPES[typeMatch[1]]` for truthiness. -/

def footnoteTypeNames : List (List Char) :=
  ["note".data, "warning".data, "info".data, "reference".data, "idea".data,
   "question".data]

/-- The own property names of `Object.prototype`.  `FOOTNOTE_TYPES` is a
plain object literal, so the bracket lookup `FOOTNOTE_TYPES[id]` walks the
prototype chain: for these identifiers it yields the inherited value
(a function, or `Object.prototype` itself for `__proto__`), all of which
are truthy.  Every name here matches the `\w+` key pattern. -/
def objectProtoNames : List (List Char) :=
  ["constructor".data, "hasOwnProperty".data, "isPrototypeOf".data,
   "propertyIsEnumerable".data, "toLocaleString".data, "toString".data,
   "valueOf".data, "__proto__".data, "__defineGetter__".data,
   "__defineSetter__".data, "__lookupGetter__".data, "__lookupSetter__".data]

/-- `parseFootnoteContent(footnote)`: with the `s` flag `.` matches line
terminators, and `^`/`$` are the ends of the whole string, so the capture
is everything after the first colon following a maximal word-character
run.  The guard `FOOTNOTE_TYPES[typeMatch[1]]` is a truthiness test on a
plain-object lookup, so it passes both the six own keys and the inherited
`Object.prototype` property names. -/
def parseFootnoteContent (footnote : List Char) : List Char × List Char :=
  let key := footnote.takeWhile isWordChar
  if key.isEmpty then ("note".data, footnote)
  else
    match footnote.drop key.length with
    | ':' :: rest =>
      if key ∈ footnoteTypeNames ∨ key ∈ objectProtoNames then (key, trimJS rest)
      else ("note".data, footnote)
    | _ => ("note".data, footnote)

/-! ## parseBlockContent (src/main.ts lines 392-446) -/

/-- Value of a metadata entry: `tags` is list-valued, all other keys keep a
trimmed scalar. -/
inductive MetaVal
  | scalar (v : List Char)
  | vlist (vs : List (List Char))
deriving DecidableEq, Repr

/-- The section the line-scanning state machine is currently in; `start` is
the initial `currentSection = ""`. -/
inductive SectionTag
  | start
  | metadata
  | text
  | commentary
  | footnote
deriving DecidableEq, Repr

/-- A parsed commentary region ("Block" of the data model). -/
structure ParsedBlock where
  originalText : List Char
  commentary : List Char
  footnotes : List Char
  metadata : List (List Char × MetaVal)
deriving DecidableEq, Repr

/-- The metadata line regex `^(\w+):\s*(.+)$` (no `m`/`s` flags): value part
`\s*(.+)$`, greedy whitespace skip with backtracking, capture running to the
very end of the line.  Returns the raw captured value. -/
def matchRestVal : List Char → Option (List Char)
  | [] => none
  | c :: cs =>
    if jsWs c then
      match matchRestVal cs with
      | some v => some v
      | none => if (c :: cs).all jsDot then some (c :: cs) else none
    else if (c :: cs).all jsDot then some (c :: cs) else none

/-- Full metadata line match: `(key, raw value)`. -/
def metaLineParse (line : List Char) : Option (List Char × List Char) :=
  let key := line.takeWhile isWordChar
  if key.isEmpty then none
  else
    match line.drop key.length with
    | ':' :: rest => (matchRestVal rest).map (fun v => (key, v))
    | _ => none

/-- JS object property assignment `metadata[key] = v` on the plain object
`metadata = {}`.  The key `__proto__` never creates an own entry: the
assignment invokes the inherited `Object.prototype.__proto__` accessor,
whose setter silently ignores the non-object values produced here (a
trimmed string or an array of strings), so the metadata line is dropped.
Every other key — including the remaining inherited `Object.prototype`
names, which are data properties and are shadowed as usual — is stored as
an own entry, overwriting in place. -/
def objSet (m : List (List Char × MetaVal)) (k : List Char) (v : MetaVal) :
    List (List Char × MetaVal) :=
  if k = "__proto__".data then m
  else if m.any (fun p => p.1 = k) then
    m.map (fun p => if p.1 = k then (k, v) else p)
  else m ++ [(k, v)]

/-- Handling of one line inside the metadata section (src/main.ts 428-441). -/
def metaStep (m : List (List Char × MetaVal)) (line : List Char) :
    List (List Char × MetaVal) :=
  match metaLineParse line with
  | some (k, v) =>
    if k = "tags".data then objSet m k (.vlist ((splitCommas v).map trimJS))
    else objSet m k (.scalar (trimJS v))
  | none => m

/-- One iteration of the `for (const line of lines)` loop of
`parseBlockContent`; delimiter tests in source order. -/
def parseBlockStep (st : ParsedBlock × SectionTag) (line : List Char) :
    ParsedBlock × SectionTag :=
  if "---text---".data.isPrefixOf line then (st.1, .text)
  else if "---commentary---".data.isPrefixOf line then (st.1, .commentary)
  else if "---footnote---".data.isPrefixOf line then (st.1, .footnote)
  else if "---metadata---".data.isPrefixOf line then (st.1, .metadata)
  else
    match st.2 with
    | .text => ({ st.1 with originalText := st.1.originalText ++ line ++ ['\n'] }, st.2)
    | .commentary => ({ st.1 with commentary := st.1.commentary ++ line ++ ['\n'] }, st.2)
    | .footnote => ({ st.1 with footnotes := st.1.footnotes ++ line ++ ['\n'] }, st.2)
    | .metadata => ({ st.1 with metadata := metaStep st.1.metadata line }, st.2)
    | .start => st

/-- `parseBlockContent(source)`. -/
def parseBlockContent (source : List Char) : ParsedBlock :=
  ((splitLines source).foldl parseBlockStep (⟨[], [], [], []⟩, .start)).1

/-! ## getCurrentCommentaryBlockBounds (src/main.ts lines 111-203) -/

/-- "BlockBounds" of the data model. -/
structure CommentaryBlockBounds where
  startLine : Nat
  endLine : Nat
  textStart : Option Nat := none
  textEnd : Option Nat := none
  commentaryStart : Option Nat := none
  commentaryEnd : Option Nat := none
  footnoteStart : Option Nat := none
  footnoteEnd : Option Nat := none
  metadataStart : Option Nat := none
  metadataEnd : Option Nat := none
deriving DecidableEq, Repr

/-- Line `i` of the document (out-of-range access is totalized to ""; all
theorems below keep the cursor inside the document, where the source never
performs such an access). -/
def lineAt (lines : List (List Char)) (i : Nat) : List Char := lines.getD i []

def commentaryFence : List Char := "```commentary".data
def genericFence : List Char := "```".data

/-- Backward scan from the cursor for the opening fence (src/main.ts
120-129), current scan position `i`.  (At `i = 0` both the generic-fence
branch and falling off the loop yield `null`, so they are collapsed.) -/
def findBlockStart (lines : List (List Char)) (cursorLine : Nat) :
    Nat → Option Nat
  | 0 => if commentaryFence.isPrefixOf (lineAt lines 0) then some 0 else none
  | i + 1 =>
    if commentaryFence.isPrefixOf (lineAt lines (i + 1)) then some (i + 1)
    else if genericFence.isPrefixOf (lineAt lines (i + 1)) && decide (i + 1 < cursorLine)
    then none
    else findBlockStart lines cursorLine i

/-- Forward scan for the closing fence (src/main.ts 136-145); `fuel` is the
number of remaining loop iterations, exhaustion means end of document. -/
def findBlockEndAux (lines : List (List Char)) : Nat → Nat → Nat
  | _, 0 => lines.length
  | i, fuel + 1 =>
    if genericFence.isPrefixOf (lineAt lines i) then i
    else findBlockEndAux lines (i + 1) fuel

def findBlockEnd (lines : List (List Char)) (blockStart : Nat) : Nat :=
  findBlockEndAux lines (blockStart + 1) (lines.length - (blockStart + 1))

/-- One iteration of the section-boundary loop (src/main.ts 154-177).
Each delimiter records the end of the section it closes, then (re)opens its
own section; note that a section is only closed by its own delimiter or by
the canonical successor delimiter named in its branch. -/
def sectionStep (lines : List (List Char))
    (st : CommentaryBlockBounds × SectionTag) (i : Nat) :
    CommentaryBlockBounds × SectionTag :=
  let line := lineAt lines i
  let b := st.1
  if "---metadata---".data.isPrefixOf line then
    let b := if st.2 = .metadata then { b with metadataEnd := some i } else b
    ({ b with metadataStart := some i }, .metadata)
  else if "---text---".data.isPrefixOf line then
    let b := if st.2 = .metadata then { b with metadataEnd := some i } else b
    let b := if st.2 = .text then { b with textEnd := some i } else b
    ({ b with textStart := some i }, .text)
  else if "---commentary---".data.isPrefixOf line then
    let b := if st.2 = .text then { b with textEnd := some i } else b
    let b := if st.2 = .commentary then { b with commentaryEnd := some i } else b
    ({ b with commentaryStart := some i }, .commentary)
  else if "---footnote---".data.isPrefixOf line then
    let b := if st.2 = .commentary then { b with commentaryEnd := some i } else b
    let b := if st.2 = .footnote then { b with footnoteEnd := some i } else b
    ({ b with footnoteStart := some i }, .footnote)
  else st

/-- Closing of the last open section at the block end (src/main.ts
180-200). -/
def closeLast (b : CommentaryBlockBounds) (cur : SectionTag) (blockEnd : Nat) :
    CommentaryBlockBounds :=
  if cur = .metadata ∧ b.metadataStart.isSome then { b with metadataEnd := some blockEnd }
  else if cur = .text ∧ b.textStart.isSome then { b with textEnd := some blockEnd }
  else if cur = .commentary ∧ b.commentaryStart.isSome then
    { b with commentaryEnd := some blockEnd }
  else if cur = .footnote ∧ b.footnoteStart.isSome then
    { b with footnoteEnd := some blockEnd }
  else b

/-- `getCurrentCommentaryBlockBounds(editor, cursorLine)`; the editor
document is given as its list of lines. -/
def getCurrentCommentaryBlockBounds (lines : List (List Char))
    (cursorLine : Nat) : Option CommentaryBlockBounds :=
  match findBlockStart lines cursorLine cursorLine with
  | none => none
  | some blockStart =>
    let blockEnd := findBlockEnd lines blockStart
    let init : CommentaryBlockBounds := { startLine := blockStart, endLine := blockEnd }
    let res := (List.range' (blockStart + 1) (blockEnd - (blockStart + 1))).foldl
      (sectionStep lines) (init, .start)
    some (closeLast res.1 res.2 blockEnd)

/-! ## getNextFootnoteNumberInBlock (src/main.ts lines 1049-1075) -/

/-- The reference numbers collected from the scanned line range: for each
line, `line.match(/\$\[(\d+)\]/g)` re-matched per occurrence and parsed. -/
def blockRefNums (lines : List (List Char)) (b : CommentaryBlockBounds) :
    List Nat :=
  ((List.range' b.startLine (min b.endLine lines.length - b.startLine)).map
    (fun i => (scanRefs (lineAt lines i)).map (·.num))).flatten

/-- `getNextFootnoteNumberInBlock(editor, blockBounds)`:
`Math.max(...refs) + 1`, or `1` when no reference was found. -/
def getNextFootnoteNumberInBlock (lines : List (List Char))
    (b : CommentaryBlockBounds) : Nat :=
  let refs := blockRefNums lines b
  if refs.isEmpty then 1 else refs.foldl max 0 + 1

/-! ## addFootnoteDefinitionToBlock (src/main.ts lines 1336-1377) -/

/-- `addFootnoteDefinitionToBlock(editor, definition, blockBounds)`: returns
the new document lines and the reported cursor target `(line, ch)`.  (The
TypeScript return type admits `null` but both branches return a position.)
`footnoteEnd || blockBounds.endLine` is JS truthiness: `0` also falls back
to the block end line. -/
def addFootnoteDefinitionToBlock (lines : List (List Char))
    (definition : List Char) (b : CommentaryBlockBounds) :
    List (List Char) × (Nat × Nat) :=
  match b.footnoteStart with
  | some _ =>
    let insertLine :=
      match b.footnoteEnd with
      | some e => if e = 0 then b.endLine else e
      | none => b.endLine
    (lines.take insertLine ++ [definition] ++ lines.drop insertLine, (insertLine, 0))
  | none =>
    let insertLine := b.endLine
    (lines.take insertLine ++ [[], "---footnote---".data, definition] ++
        lines.drop insertLine,
      (insertLine + 2, 0))

/-! ## Spec-side definitions

The following definitions are written from the specification's words, to be
compared with the source-derived functions above (refinement claims C1 and
C6). -/

/-- Spec §4.2 steps 2-3: the distinct reference numbers in order of first
occurrence; position `k` (0-based) holds the number with display index
`k + 1`. -/
def displayOrder (commentaryText : List Char) : List Nat :=
  dedupFirst ((scanRefs commentaryText).map (·.num))

/-- Spec §4.2 step 4: a single left-to-right rewrite that replaces each
occurrence, in source order, by the placeholder of its display index;
`p` is the source position up to which the text has been emitted. -/
def rewriteFrom (s : List Char) (disp : Nat → Nat) :
    Nat → List RefOcc → List Char
  | p, [] => s.drop p
  | p, r :: rs =>
    (s.drop p).take (r.index - p) ++ placeholder (disp r.num) ++
      rewriteFrom s disp (r.index + r.len) rs

/-- Spec §4.2 `resolve(commentary, footnoteDefs)`: placeholder-substituted
text plus one resolved body per distinct reference number, in first
occurrence order, missing definitions replaced by the synthetic body. -/
def resolveSpec (commentaryText footnotesText : List Char) :
    List Char × List (List Char) :=
  let defs := buildDefsMap footnotesText
  let ord := displayOrder commentaryText
  (rewriteFrom commentaryText (fun n => posOf n ord + 1) 0 (scanRefs commentaryText),
    ord.map (contentFor defs))

/-- Spec §4.1 labelling semantics: each non-delimiter line paired with the
section active at it (`start` = before any delimiter); delimiter lines are
dropped. -/
def isDelimLine (line : List Char) : Bool :=
  "---text---".data.isPrefixOf line || "---commentary---".data.isPrefixOf line ||
  "---footnote---".data.isPrefixOf line || "---metadata---".data.isPrefixOf line

/-- The section active after seeing `line`. -/
def tagAfter (t : SectionTag) (line : List Char) : SectionTag :=
  if "---text---".data.isPrefixOf line then .text
  else if "---commentary---".data.isPrefixOf line then .commentary
  else if "---footnote---".data.isPrefixOf line then .footnote
  else if "---metadata---".data.isPrefixOf line then .metadata
  else t

/-- Labelled non-delimiter lines, starting from section `t`. -/
def labeledFrom (t : SectionTag) : List (List Char) → List (SectionTag × List Char)
  | [] => []
  | line :: rest =>
    if isDelimLine line then labeledFrom (tagAfter t line) rest
    else (t, line) :: labeledFrom t rest

/-- The lines labelled with section `tag`, in order. -/
def sectionLines (tag : SectionTag) (source : List Char) : List (List Char) :=
  ((labeledFrom .start (splitLines source)).filter (fun p => p.1 = tag)).map (·.2)

/-- Section body accumulated per spec §4.1: every line appended with a
trailing newline. -/
def joinNl (ls : List (List Char)) : List Char :=
  (ls.map (· ++ ['\n'])).flatten

/-! ## Helper lemmas -/

/-- `takeWhile` over an append whose first part satisfies the predicate and
whose continuation starts with a failing character. -/
theorem takeWhile_append_all {p : Char → Bool} {l1 l2 : List Char}
    (h1 : ∀ c ∈ l1, p c = true) (h2 : ∀ c ∈ l2.head?, p c = false) :
    (l1 ++ l2).takeWhile p = l1 := by
  induction l1 with
  | nil =>
    cases l2 with
    | nil => rfl
    | cons c t => simp [List.takeWhile, h2 c rfl]
  | cons c t ih =>
    simp only [List.cons_append, List.takeWhile, h1 c (by simp)]
    simpa using ih (fun d hd => h1 d (by simp [hd]))

/-- Dropping the length of the `takeWhile` prefix is `dropWhile`. -/
theorem drop_length_takeWhile (p : Char → Bool) (l : List Char) :
    l.drop (l.takeWhile p).length = l.dropWhile p := by
  induction l with
  | nil => rfl
  | cons c t ih =>
    by_cases h : p c
    · simpa [List.takeWhile_cons_of_pos h, List.dropWhile_cons_of_pos h] using ih
    · simp [List.takeWhile_cons_of_neg h, List.dropWhile_cons_of_neg h]

/-- Every element of a `takeWhile` prefix satisfies the predicate. -/
theorem mem_takeWhile_sat {p : Char → Bool} {l : List Char} {c : Char}
    (h : c ∈ l.takeWhile p) : p c = true := by
  induction l with
  | nil => simp at h
  | cons d t ih =>
    by_cases hd : p d
    · rw [List.takeWhile_cons_of_pos hd] at h
      rcases List.mem_cons.mp h with rfl | h
      · exact hd
      · exact ih h
    · rw [List.takeWhile_cons_of_neg hd] at h; simp at h

/-! ## Claim C7 -/

/-- C7 counterexample: `toString` is none of the six type names, so the
claim predicts type note with the body unchanged; but the truthiness test
`FOOTNOTE_TYPES["toString"]` finds the inherited `Object.prototype`
method, so the program strips the prefix and returns type `toString`. -/
theorem C7_counterexample :
    parseFootnoteContent "toString: x".data ≠
      ("note".data, "toString: x".data)
    ∧ parseFootnoteContent "toString: x".data = ("toString".data, "x".data) := by
  constructor <;> decide

/-- C7 (amended): classification returns the identifier as type with the
remainder after the colon trimmed (the rest may contain embedded newlines)
when the body is `identifier:rest` and the identifier is one of the six
type names or an inherited `Object.prototype` property name (the
prototype-chain truthiness artifact); otherwise it returns type note with
the whole body unchanged. -/
theorem C7_footnote_classification :
    (∀ (ident rest : List Char), ident ≠ [] → (∀ c ∈ ident, isWordChar c = true) →
      (ident ∈ footnoteTypeNames ∨ ident ∈ objectProtoNames) →
      parseFootnoteContent (ident ++ ':' :: rest) = (ident, trimJS rest))
    ∧ (∀ body : List Char,
      (∀ (ident rest : List Char), body = ident ++ ':' :: rest →
        (∀ c ∈ ident, isWordChar c = true) →
        ident ∉ footnoteTypeNames ∧ ident ∉ objectProtoNames) →
      parseFootnoteContent body = ("note".data, body)) := by
  constructor
  · intro ident rest hne hw hmem
    have htw : (ident ++ ':' :: rest).takeWhile isWordChar = ident :=
      takeWhile_append_all hw (by intro c hc; simp at hc; subst hc; rfl)
    have hdrop : (ident ++ ':' :: rest).drop ident.length = ':' :: rest :=
      List.drop_left ident (':' :: rest)
    simp only [parseFootnoteContent, htw, hdrop, List.isEmpty_iff, hne, if_false,
      if_pos hmem]
  · intro body h
    unfold parseFootnoteContent
    by_cases he : (body.takeWhile isWordChar).isEmpty
    · simp [he]
    · simp only [he, if_false]
      rcases hd : body.drop (body.takeWhile isWordChar).length with _ | ⟨c, rest⟩
      · simp
      · by_cases hc : c = ':'
        · subst hc
          have hsplit : body = body.takeWhile isWordChar ++ ':' :: rest := by
            conv_lhs =>
              rw [← List.takeWhile_append_dropWhile (p := isWordChar) (l := body)]
            rw [← drop_length_takeWhile isWordChar body, hd]
          have hnotin := h (body.takeWhile isWordChar) rest hsplit
            (fun c hc => mem_takeWhile_sat hc)
          simp [hd, hnotin.1, hnotin.2]
        · simp [hd, hc]

/-- C7 witness: a recognized `warning:` body with an embedded newline and a
trailing space, an inherited-property `toString:` body, and a body with no
colon at all. -/
theorem C7_footnote_classification_witness :
    parseFootnoteContent ("warning".data ++ ':' :: "x\ny ".data) =
      ("warning".data, trimJS "x\ny ".data)
    ∧ parseFootnoteContent ("toString".data ++ ':' :: " x".data) =
      ("toString".data, trimJS " x".data)
    ∧ parseFootnoteContent "hello\nworld".data =
      ("note".data, "hello\nworld".data) := by
  refine ⟨C7_footnote_classification.1 "warning".data "x\ny ".data
      (by decide) (by decide) (by decide),
    C7_footnote_classification.1 "toString".data " x".data
      (by decide) (by decide) (by decide),
    C7_footnote_classification.2 _ ?_⟩
  intro ident rest heq _
  have hmem : ':' ∈ "hello\nworld".data := by
    rw [heq]; exact List.mem_append_right ident (List.mem_cons_self ':' rest)
  exact absurd hmem (by decide)

/-! ## Claim C5 -/

/-- A definition match can only begin at a dollar sign. -/
theorem tryDefAt_not_dollar {c : Char} (h : c ≠ '$') (l : List Char) :
    tryDefAt (c :: l) = none := by
  unfold tryDefAt
  split
  next heq => injection heq with h1 _; exact absurd h1 h
  next => rfl

/-- Scanning a prefix containing no dollar sign finds no definition. -/
theorem parseDefsAux_append_no_dollar :
    ∀ pre rest : List Char, (∀ c ∈ pre, c ≠ '$') →
      parseDefsAux (pre ++ rest) 0 = parseDefsAux rest 0 := by
  intro pre
  induction pre with
  | nil => intro rest _; rfl
  | cons c t ih =>
    intro rest h
    have hc : c ≠ '$' := h c (by simp)
    have : parseDefsAux ((c :: t) ++ rest) 0 = parseDefsAux (t ++ rest) 0 := by
      simp [parseDefsAux, tryDefAt_not_dollar hc]
    rw [this, ih rest (fun d hd => h d (by simp [hd]))]

/-- C5 counterexample: the definition pattern of the source has no
line-start anchor, so a mid-line `$[1]: x` is recognized and used to
resolve the reference (the claim instead predicts the synthetic missing
body); and a body is cut off by a blank line followed by another blank
line, even though no next definition line exists and the section has not
ended. -/
theorem C5_counterexample :
    (processFootnotes "$[1]".data "a $[1]: x\n".data).2 = ["x".data]
    ∧ parseDefsList "$[1]: a\n\n\nb\n".data = [(1, "a".data)] := by
  constructor <;> decide

/-- C5 (amended): a definition is recognized by the pattern at any position,
including mid-line (here: after any dollar-free prefix); its body continues
across subsequent lines until a line starting a new definition, a blank
line followed by a whitespace-only (or absent) line, or the end of the
section; a single blank line followed by content does not terminate the
body. -/
theorem C5_footnote_definition_pattern :
    (∀ pre : List Char, (∀ c ∈ pre, c ≠ '$') →
      parseDefsList (pre ++ "$[1]: x\n".data) = [(1, "x".data)])
    ∧ parseDefsList "$[1]: a\n\nb\n".data = [(1, "a\n\nb".data)]
    ∧ parseDefsList "$[1]: a\n\n\nb\n".data = [(1, "a".data)]
    ∧ parseDefsList "$[1]: a\ncont\n$[2]: b\n".data =
        [(1, "a\ncont".data), (2, "b".data)] := by
  refine ⟨fun pre h => ?_, by decide, by decide, by decide⟩
  unfold parseDefsList
  rw [parseDefsAux_append_no_dollar pre _ h]
  decide

/-- C5 witness: the general mid-line clause applied to the prefix "see ". -/
theorem C5_footnote_definition_pattern_witness :
    parseDefsList ("see ".data ++ "$[1]: x\n".data) = [(1, "x".data)] :=
  C5_footnote_definition_pattern.1 "see ".data (by decide)

theorem find?_map_replace (t : List (Nat × List Char)) (k : Nat) (v : List Char)
    (k' : Nat) (hne : k' ≠ k) :
    (t.map (fun p => if p.1 = k then (k, v) else p)).find? (fun p => p.1 = k') =
      t.find? (fun p => p.1 = k') := by
  induction t with
  | nil => rfl
  | cons q r ih =>
    by_cases hq : q.1 = k
    · have h1 : (if q.1 = k then (k, v) else q) = (k, v) := if_pos hq
      have h2 : ¬ ((k : Nat) = k') := fun h => hne h.symm
      have h3 : ¬ (q.1 = k') := by rw [hq]; exact h2
      simp only [List.map_cons, List.find?_cons, h1]
      simp [h2, h3, ih]
    · have h1 : (if q.1 = k then (k, v) else q) = q := if_neg hq
      by_cases hq' : q.1 = k'
      · simp only [List.map_cons, List.find?_cons, h1]
        simp [hq']
      · simp only [List.map_cons, List.find?_cons, h1]
        simp [hq', ih]

theorem find?_none_of_any_false (m : List (Nat × List Char)) (k : Nat)
    (h : m.any (fun p => decide (p.1 = k)) = false) :
    m.find? (fun p => p.1 = k) = none := by
  induction m with
  | nil => rfl
  | cons q t ih =>
    simp only [List.any_cons, Bool.or_eq_false_iff] at h
    simp only [List.find?_cons, h.1, ih h.2]

theorem mapGet_mapSet (m : List (Nat × List Char)) (k : Nat) (v : List Char)
    (k' : Nat) :
    mapGet (mapSet m k v) k' = if k' = k then some v else mapGet m k' := by
  by_cases hany : m.any (fun p => decide (p.1 = k)) = true
  · by_cases h : k' = k
    · subst h
      simp only [mapSet, hany, if_true, mapGet]
      induction m with
      | nil => simp at hany
      | cons q t ih =>
        by_cases hq : q.1 = k'
        · have h1 : (if q.1 = k' then (k', v) else q) = (k', v) := if_pos hq
          simp only [List.map_cons, List.find?_cons, h1]
          simp
        · have h1 : (if q.1 = k' then (k', v) else q) = q := if_neg hq
          simp only [List.any_cons, hq, decide_eq_true_eq, Bool.or_eq_true,
            false_or] at hany
          simp only [List.map_cons, List.find?_cons, h1]
          simp only [decide_eq_false hq]
          exact ih (by simpa using hany)
    · simp only [mapSet, hany, if_true, mapGet, if_neg h]
      rw [find?_map_replace m k v k' h]
  · simp only [Bool.not_eq_true] at hany
    simp only [mapSet, hany, Bool.false_eq_true, if_false, mapGet]
    rw [List.find?_append]
    by_cases h : k' = k
    · subst h
      rw [find?_none_of_any_false m k' hany]
      simp [List.find?_cons]
    · have h2 : ¬ ((k : Nat) = k') := fun hh => h hh.symm
      simp only [List.find?_cons, h2]
      simp only [if_neg h]
      cases m.find? (fun p => p.1 = k') <;> simp [h2]

/-! ## Claim C3 -/

/-- Looking up a key in the map built by repeated `Map.set` returns the
value of the LAST entry for that key in the insertion sequence. -/
theorem mapGet_build (l : List (Nat × List Char)) : ∀ (m : List (Nat × List Char))
    (k : Nat),
    mapGet (l.foldl (fun m p => mapSet m p.1 p.2) m) k =
      (match l.reverse.find? (fun p => p.1 = k) with
       | some p => some p.2
       | none => mapGet m k) := by
  induction l with
  | nil => intro m k; rfl
  | cons p l ih =>
    intro m k
    rw [List.foldl_cons, ih (mapSet m p.1 p.2) k, mapGet_mapSet]
    rw [List.reverse_cons, List.find?_append]
    cases hfind : l.reverse.find? (fun q => q.1 = k) with
    | some q => rfl
    | none =>
      by_cases hk : p.1 = k
      · simp [List.find?_cons, hk, if_pos hk.symm]
      · have hk' : ¬ (k = p.1) := fun h => hk h.symm
        simp [List.find?_cons, hk, if_neg hk']

/-- C3 counterexample: with two definitions for number 1, resolution does
NOT use the first body "a" (it uses the last one, "b"). -/
theorem C3_counterexample :
    (processFootnotes "$[1]".data "$[1]: a\n$[1]: b".data).2 ≠ ["a".data] := by
  decide

/-- C3 (amended): when a footnote-definitions section has two or more
definition lines for the same number, resolution uses the body of the LAST
definition parsed for that number (the single-pass `Map.set` overwrites);
at most one definition — the last — governs a given number. -/
theorem C3_duplicate_definitions :
    (processFootnotes "$[1]".data "$[1]: a\n$[1]: b".data).2 = ["b".data]
    ∧ ∀ (d : List Char) (k : Nat),
      mapGet (buildDefsMap d) k =
        ((parseDefsList d).reverse.find? (fun p => p.1 = k)).map (·.2) := by
  refine ⟨by decide, fun d k => ?_⟩
  rw [buildDefsMap, mapGet_build]
  cases hfind : (parseDefsList d).reverse.find? (fun p => p.1 = k) <;> rfl

/-- C3 witness: the last-wins lookup characterization applied to the
duplicate-definition section of the counterexample. -/
theorem C3_duplicate_definitions_witness :
    mapGet (buildDefsMap "$[1]: a\n$[1]: b".data) 1 =
      ((parseDefsList "$[1]: a\n$[1]: b".data).reverse.find?
        (fun p => p.1 = 1)).map (·.2) :=
  C3_duplicate_definitions.2 "$[1]: a\n$[1]: b".data 1

/-! ## Claim C8 -/

theorem left_le_foldl_max (l : List Nat) : ∀ a : Nat, a ≤ l.foldl max a := by
  induction l with
  | nil => intro a; exact Nat.le_refl a
  | cons c t ih =>
    intro a
    exact Nat.le_trans (Nat.le_max_left a c) (ih (max a c))

theorem mem_le_foldl_max (l : List Nat) : ∀ (a n : Nat), n ∈ l → n ≤ l.foldl max a := by
  induction l with
  | nil => intro a n h; simp at h
  | cons c t ih =>
    intro a n h
    rcases List.mem_cons.mp h with rfl | h
    · exact Nat.le_trans (Nat.le_max_right a n) (left_le_foldl_max t (max a n))
    · exact ih (max a c) n h

theorem foldl_max_mem (l : List Nat) : ∀ a : Nat, l.foldl max a = a ∨ l.foldl max a ∈ l := by
  induction l with
  | nil => intro a; exact Or.inl rfl
  | cons c t ih =>
    intro a
    rcases ih (max a c) with h | h
    · rcases max_choice a c with hm | hm
      · exact Or.inl (by rw [List.foldl_cons, h, hm])
      · exact Or.inr (by rw [List.foldl_cons, h, hm]; exact List.mem_cons_self c t)
    · exact Or.inr (List.mem_cons_of_mem c h)

/-- C8: next-number allocation scans only the block's line range for
reference markers; on a block holding only the markers 1 and 3 it returns
4 (max plus one), never the gap 2; in general the result is one more than
the maximum number found, or 1 when none exists. -/
theorem C8_next_number_allocation :
    (getCurrentCommentaryBlockBounds
        ["```commentary".data, "---commentary---".data, "a $[1] b $[3]".data,
         "```".data] 2 =
      some { startLine := 0, endLine := 3, commentaryStart := some 1,
             commentaryEnd := some 3 }
      ∧ getNextFootnoteNumberInBlock
          ["```commentary".data, "---commentary---".data, "a $[1] b $[3]".data,
           "```".data]
          { startLine := 0, endLine := 3, commentaryStart := some 1,
            commentaryEnd := some 3 } = 4)
    ∧ ∀ (lines : List (List Char)) (b : CommentaryBlockBounds),
      (blockRefNums lines b = [] → getNextFootnoteNumberInBlock lines b = 1)
      ∧ (∀ n ∈ blockRefNums lines b, n < getNextFootnoteNumberInBlock lines b)
      ∧ (blockRefNums lines b ≠ [] →
          getNextFootnoteNumberInBlock lines b - 1 ∈ blockRefNums lines b) := by
  refine ⟨⟨by decide, by decide⟩, fun lines b => ⟨?_, ?_, ?_⟩⟩
  · intro h
    simp [getNextFootnoteNumberInBlock, h]
  · intro n hn
    have hne : (blockRefNums lines b).isEmpty = false := by
      cases hx : blockRefNums lines b with
      | nil => rw [hx] at hn; simp at hn
      | cons c t => rfl
    simp only [getNextFootnoteNumberInBlock, hne, Bool.false_eq_true, if_false]
    exact Nat.lt_succ_of_le (mem_le_foldl_max _ 0 n hn)
  · intro h
    have hne : (blockRefNums lines b).isEmpty = false := by
      cases hx : blockRefNums lines b with
      | nil => exact absurd hx h
      | cons c t => rfl
    simp only [getNextFootnoteNumberInBlock, hne, Bool.false_eq_true, if_false,
      Nat.add_sub_cancel]
    rcases foldl_max_mem (blockRefNums lines b) 0 with h0 | hmem
    · cases hx : blockRefNums lines b with
      | nil => exact absurd hx h
      | cons c t =>
        have hc : c ≤ 0 := by
          have := mem_le_foldl_max (blockRefNums lines b) 0 c
            (by rw [hx]; exact List.mem_cons_self c t)
          rw [h0] at this
          exact this
        rw [hx] at h0
        rw [h0]
        have : c = 0 := Nat.le_zero.mp hc
        rw [← this]
        exact List.mem_cons_self c t
    · exact hmem

/-- C8 witness: the general max-plus-one characterization applied to the
Scenario C block. -/
theorem C8_next_number_allocation_witness :
    getNextFootnoteNumberInBlock
        ["```commentary".data, "---commentary---".data, "a $[1] b $[3]".data,
         "```".data]
        { startLine := 0, endLine := 3, commentaryStart := some 1,
          commentaryEnd := some 3 } - 1 ∈
      blockRefNums
        ["```commentary".data, "---commentary---".data, "a $[1] b $[3]".data,
         "```".data]
        { startLine := 0, endLine := 3, commentaryStart := some 1,
          commentaryEnd := some 3 } :=
  ((C8_next_number_allocation.2 _ _).2.2) (by decide)

/-! ## Claim C9 -/

theorem getD_append_len {α} (A : List α) (x : α) (r : List α) (d : α) :
    (A ++ x :: r).getD A.length d = x := by
  induction A with
  | nil => rfl
  | cons a t ih => simpa using ih

/-- C9: with an existing footnote section the new definition line is placed
at the section's recorded end line, which is also the reported cursor line;
without one, a blank line, a `---footnote---` delimiter and the definition
are inserted immediately before the block's end line, and the reported
cursor line is the insertion point plus two. -/
theorem C9_definition_insertion :
    (∀ (lines : List (List Char)) (defn : List Char) (b : CommentaryBlockBounds)
        (s e : Nat), b.footnoteStart = some s → b.footnoteEnd = some e → 0 < e →
        e ≤ lines.length →
        (addFootnoteDefinitionToBlock lines defn b).1 =
          lines.take e ++ [defn] ++ lines.drop e
        ∧ (addFootnoteDefinitionToBlock lines defn b).1.getD e [] = defn
        ∧ (addFootnoteDefinitionToBlock lines defn b).2 = (e, 0))
    ∧ (∀ (lines : List (List Char)) (defn : List Char) (b : CommentaryBlockBounds),
        b.footnoteStart = none → b.endLine ≤ lines.length →
        (addFootnoteDefinitionToBlock lines defn b).1 =
          lines.take b.endLine ++ [[], "---footnote---".data, defn] ++
            lines.drop b.endLine
        ∧ (addFootnoteDefinitionToBlock lines defn b).1.getD (b.endLine + 1) [] =
            "---footnote---".data
        ∧ (addFootnoteDefinitionToBlock lines defn b).1.getD (b.endLine + 2) [] = defn
        ∧ (addFootnoteDefinitionToBlock lines defn b).2 = (b.endLine + 2, 0)) := by
  constructor
  · intro lines defn b s e hs he hpos hlen
    have hne : e ≠ 0 := Nat.pos_iff_ne_zero.mp hpos
    have heq : addFootnoteDefinitionToBlock lines defn b =
        (lines.take e ++ [defn] ++ lines.drop e, (e, 0)) := by
      unfold addFootnoteDefinitionToBlock
      rw [hs, he]
      simp [hne]
    have hlt : (lines.take e).length = e := by
      rw [List.length_take]
      exact Nat.min_eq_left hlen
    refine ⟨by rw [heq], ?_, by rw [heq]⟩
    rw [heq]
    have hg := getD_append_len (lines.take e) defn (lines.drop e) ([] : List Char)
    rw [hlt] at hg
    simpa using hg
  · intro lines defn b hs hlen
    have heq : addFootnoteDefinitionToBlock lines defn b =
        (lines.take b.endLine ++ [[], "---footnote---".data, defn] ++
          lines.drop b.endLine, (b.endLine + 2, 0)) := by
      unfold addFootnoteDefinitionToBlock
      rw [hs]
    have hlt : (lines.take b.endLine).length = b.endLine := by
      rw [List.length_take]
      exact Nat.min_eq_left hlen
    refine ⟨by rw [heq], ?_, ?_, by rw [heq]⟩
    · rw [heq]
      have hg := getD_append_len (lines.take b.endLine ++ [[]])
        "---footnote---".data (defn :: lines.drop b.endLine) ([] : List Char)
      have hl2 : (lines.take b.endLine ++ [([] : List Char)]).length =
          b.endLine + 1 := by simp [hlt]
      rw [hl2] at hg
      simpa using hg
    · rw [heq]
      have hg := getD_append_len
        (lines.take b.endLine ++ [[], "---footnote---".data]) defn
        (lines.drop b.endLine) ([] : List Char)
      have hl2 : (lines.take b.endLine ++
          [([] : List Char), "---footnote---".data]).length = b.endLine + 2 := by
        simp [hlt]
      rw [hl2] at hg
      simpa using hg

/-- C9 witness: both insertion branches on small concrete blocks. -/
theorem C9_definition_insertion_witness :
    ((addFootnoteDefinitionToBlock
        ["```commentary".data, "---footnote---".data, "$[1]: d".data, "```".data]
        "$[2]: e".data
        { startLine := 0, endLine := 3, footnoteStart := some 1,
          footnoteEnd := some 3 }).2 = (3, 0))
    ∧ ((addFootnoteDefinitionToBlock
        ["```commentary".data, "c $[1]".data, "```".data] "$[1]: d".data
        { startLine := 0, endLine := 2, commentaryStart := some 1 }).2 = (4, 0)) :=
  ⟨(C9_definition_insertion.1
      ["```commentary".data, "---footnote---".data, "$[1]: d".data, "```".data]
      "$[2]: e".data
      { startLine := 0, endLine := 3, footnoteStart := some 1,
        footnoteEnd := some 3 } 1 3 rfl rfl (by decide) (by decide)).2.2,
   (C9_definition_insertion.2
      ["```commentary".data, "c $[1]".data, "```".data] "$[1]: d".data
      { startLine := 0, endLine := 2, commentaryStart := some 1 } rfl
      (by decide)).2.2.2⟩

/-! ## Claim C10 -/

theorem bool_ne_true {b : Bool} (h : ¬ b = true) : b = false := by
  cases b
  · rfl
  · exact absurd rfl h

/-- Characterization of the backward scan: a successful result is a
commentary fence at or below the cursor, and every line strictly between it
and the scan origin is neither a commentary fence nor (below the cursor) a
generic fence. -/
theorem findBlockStart_spec (lines : List (List Char)) (cl : Nat) :
    ∀ i k, findBlockStart lines cl i = some k →
      commentaryFence.isPrefixOf (lineAt lines k) = true ∧ k ≤ i ∧
      ∀ j, k < j → j ≤ i →
        commentaryFence.isPrefixOf (lineAt lines j) = false ∧
        (genericFence.isPrefixOf (lineAt lines j) = true → ¬ (j < cl)) := by
  intro i
  induction i with
  | zero =>
    intro k h
    unfold findBlockStart at h
    by_cases hc : commentaryFence.isPrefixOf (lineAt lines 0) = true
    · rw [if_pos hc] at h
      injection h with h
      subst h
      exact ⟨hc, Nat.le_refl 0, fun j hj1 hj2 => absurd (Nat.lt_of_lt_of_le hj1 hj2)
        (Nat.lt_irrefl _)⟩
    · rw [if_neg hc] at h
      exact absurd h (by simp)
  | succ i ih =>
    intro k h
    unfold findBlockStart at h
    by_cases hc : commentaryFence.isPrefixOf (lineAt lines (i + 1)) = true
    · rw [if_pos hc] at h
      injection h with h
      subst h
      exact ⟨hc, Nat.le_refl _, fun j hj1 hj2 =>
        absurd (Nat.lt_of_lt_of_le hj1 hj2) (Nat.lt_irrefl _)⟩
    · rw [if_neg hc] at h
      by_cases hg : (genericFence.isPrefixOf (lineAt lines (i + 1)) &&
          decide (i + 1 < cl)) = true
      · rw [if_pos hg] at h
        exact absurd h (by simp)
      · rw [if_neg hg] at h
        obtain ⟨h1, h2, h3⟩ := ih k h
        refine ⟨h1, Nat.le_succ_of_le h2, fun j hj1 hj2 => ?_⟩
        rcases Nat.lt_or_ge j (i + 1) with hj | hj
        · exact h3 j hj1 (Nat.lt_succ_iff.mp hj)
        · have hj' : j = i + 1 := Nat.le_antisymm hj2 hj
          subst hj'
          simp only [Bool.and_eq_true, decide_eq_true_eq, not_and] at hg
          exact ⟨bool_ne_true hc, fun hgen hcl => hg hgen hcl⟩

/-- Characterization of the forward scan: either no generic fence exists in
the scanned window and the result is the document length, or the result is
the first generic-fence line in the window. -/
theorem findBlockEndAux_spec (lines : List (List Char)) :
    ∀ (fuel i : Nat),
      (findBlockEndAux lines i fuel = lines.length ∧
        ∀ j, i ≤ j → j < i + fuel →
          genericFence.isPrefixOf (lineAt lines j) = false)
      ∨ (genericFence.isPrefixOf
            (lineAt lines (findBlockEndAux lines i fuel)) = true ∧
         i ≤ findBlockEndAux lines i fuel ∧
         findBlockEndAux lines i fuel < i + fuel ∧
         ∀ j, i ≤ j → j < findBlockEndAux lines i fuel →
           genericFence.isPrefixOf (lineAt lines j) = false) := by
  intro fuel
  induction fuel with
  | zero =>
    intro i
    exact Or.inl ⟨rfl, fun j hj1 hj2 => absurd (Nat.lt_of_le_of_lt hj1 hj2)
      (Nat.lt_irrefl _)⟩
  | succ fuel ih =>
    intro i
    unfold findBlockEndAux
    by_cases hf : genericFence.isPrefixOf (lineAt lines i) = true
    · rw [if_pos hf]
      exact Or.inr ⟨hf, Nat.le_refl _, Nat.lt_add_of_pos_right (Nat.succ_pos fuel),
        fun j hj1 hj2 => absurd (Nat.lt_of_le_of_lt hj1 hj2) (Nat.lt_irrefl _)⟩
    · rw [if_neg hf]
      rcases ih (i + 1) with ⟨h1, h2⟩ | ⟨h1, h2, h3, h4⟩
      · refine Or.inl ⟨h1, fun j hj1 hj2 => ?_⟩
        rcases Nat.eq_or_lt_of_le hj1 with rfl | hj
        · exact bool_ne_true hf
        · exact h2 j hj (by omega)
      · refine Or.inr ⟨h1, by omega, by omega, fun j hj1 hj2 => ?_⟩
        rcases Nat.eq_or_lt_of_le hj1 with rfl | hj
        · exact bool_ne_true hf
        · exact h4 j hj hj2

/-- `sectionStep` never touches the block fence lines. -/
theorem sectionStep_pres (lines : List (List Char))
    (st : CommentaryBlockBounds × SectionTag) (i : Nat) :
    (sectionStep lines st i).1.startLine = st.1.startLine ∧
    (sectionStep lines st i).1.endLine = st.1.endLine := by
  dsimp only [sectionStep]
  split_ifs <;> exact ⟨rfl, rfl⟩

/-- Neither does the whole section-boundary pass. -/
theorem sectionFold_pres (lines : List (List Char)) :
    ∀ (l : List Nat) (st : CommentaryBlockBounds × SectionTag),
      (l.foldl (sectionStep lines) st).1.startLine = st.1.startLine ∧
      (l.foldl (sectionStep lines) st).1.endLine = st.1.endLine := by
  intro l
  induction l with
  | nil => intro st; exact ⟨rfl, rfl⟩
  | cons j t ih =>
    intro st
    rw [List.foldl_cons]
    obtain ⟨h1, h2⟩ := ih (sectionStep lines st j)
    obtain ⟨g1, g2⟩ := sectionStep_pres lines st j
    exact ⟨h1.trans g1, h2.trans g2⟩

/-- Nor does the final closing step. -/
theorem closeLast_pres (b : CommentaryBlockBounds) (cur : SectionTag) (e : Nat) :
    (closeLast b cur e).startLine = b.startLine ∧
    (closeLast b cur e).endLine = b.endLine := by
  unfold closeLast
  split_ifs <;> exact ⟨rfl, rfl⟩

/-- C10: whenever the locator returns bounds, the start line carries the
commentary open fence, the cursor lies within the block, the end line is
the first following generic-fence line or the document length when the
block is unterminated, and the locator is deterministic on unchanged
input. -/
theorem C10_bounds_invariants :
    ∀ (lines : List (List Char)) (cursorLine : Nat) (b : CommentaryBlockBounds),
      cursorLine < lines.length →
      getCurrentCommentaryBlockBounds lines cursorLine = some b →
      commentaryFence.isPrefixOf (lineAt lines b.startLine) = true
      ∧ b.startLine ≤ cursorLine
      ∧ cursorLine ≤ b.endLine
      ∧ ((b.endLine = lines.length ∧ ∀ j, b.startLine < j → j < lines.length →
            genericFence.isPrefixOf (lineAt lines j) = false)
         ∨ (b.startLine < b.endLine ∧ b.endLine < lines.length
            ∧ genericFence.isPrefixOf (lineAt lines b.endLine) = true
            ∧ ∀ j, b.startLine < j → j < b.endLine →
                genericFence.isPrefixOf (lineAt lines j) = false))
      ∧ (∀ b2, getCurrentCommentaryBlockBounds lines cursorLine = some b2 →
          b2 = b) := by
  intro lines cl b hcl hb
  have hb0 := hb
  unfold getCurrentCommentaryBlockBounds at hb
  cases hfs : findBlockStart lines cl cl with
  | none => rw [hfs] at hb; exact absurd hb (by simp)
  | some bs =>
    rw [hfs] at hb
    dsimp only at hb
    injection hb with hb
    obtain ⟨f1, f2, f3⟩ := findBlockStart_spec lines cl cl bs hfs
    have hsl : b.startLine = bs := by
      rw [← hb, (closeLast_pres _ _ _).1, (sectionFold_pres lines _ _).1]
    have hel : b.endLine = findBlockEnd lines bs := by
      rw [← hb, (closeLast_pres _ _ _).2, (sectionFold_pres lines _ _).2]
    have hbs_len : bs + 1 ≤ lines.length := Nat.succ_le_of_lt (Nat.lt_of_le_of_lt f2 hcl)
    have hwindow : (bs + 1) + (lines.length - (bs + 1)) = lines.length := by omega
    have hE := findBlockEndAux_spec lines (lines.length - (bs + 1)) (bs + 1)
    rw [hwindow] at hE
    have hEdef : findBlockEnd lines bs =
        findBlockEndAux lines (bs + 1) (lines.length - (bs + 1)) := rfl
    refine ⟨by rw [hsl]; exact f1, by rw [hsl]; exact f2, ?_, ?_, ?_⟩
    · rcases hE with ⟨h1, _⟩ | ⟨h1, h2, h3, _⟩
      · rw [hel, hEdef, h1]
        exact Nat.le_of_lt hcl
      · rw [hel, hEdef]
        by_contra hlt
        push_neg at hlt
        have hEcl : findBlockEndAux lines (bs + 1) (lines.length - (bs + 1)) ≤ cl :=
          Nat.le_of_lt hlt
        have := (f3 _ (Nat.lt_of_succ_le h2) hEcl).2 h1
        exact this hlt
    · rcases hE with ⟨h1, h2⟩ | ⟨h1, h2, h3, h4⟩
      · refine Or.inl ⟨by rw [hel, hEdef, h1], fun j hj1 hj2 => ?_⟩
        rw [hsl] at hj1
        exact h2 j (Nat.succ_le_of_lt hj1) hj2
      · refine Or.inr ⟨by rw [hsl, hel, hEdef]; omega,
          by rw [hel, hEdef]; omega, by rw [hel, hEdef]; exact h1,
          fun j hj1 hj2 => ?_⟩
        rw [hsl] at hj1
        rw [hel, hEdef] at hj2
        exact h4 j (Nat.succ_le_of_lt hj1) hj2
    · intro b2 hb2
      rw [hb0] at hb2
      injection hb2 with hb2
      exact hb2.symm

/-- C10 witness: the invariants evaluated on a concrete two-block-free
document with the cursor inside a commentary block. -/
theorem C10_bounds_invariants_witness :
    commentaryFence.isPrefixOf
      (lineAt ["x".data, "```commentary".data, "a".data, "```".data, "y".data]
        ((1 : Nat))) = true
    ∧ (1 : Nat) ≤ 2 ∧ (2 : Nat) ≤ 3 := by
  have h := C10_bounds_invariants
    ["x".data, "```commentary".data, "a".data, "```".data, "y".data] 2
    { startLine := 1, endLine := 3 } (by decide) (by decide)
  exact ⟨h.1, h.2.1, h.2.2.1⟩

/-! ## Claim C2 -/

/-- C2 counterexample: in a block whose `---metadata---` section is followed
directly by `---commentary---`, the metadata section start is recorded but
its end is NOT (the claim predicts the metadata end recorded at the
`---commentary---` line). -/
theorem C2_counterexample :
    (getCurrentCommentaryBlockBounds
      ["```commentary".data, "---metadata---".data, "title: x".data,
       "---commentary---".data, "hello".data, "```".data] 4).map
      (fun b => (b.metadataStart, b.metadataEnd)) = some (some 1, none) := by
  decide

/-- The four end-implies-start facts of a bounds record. -/
def EndsHaveStarts (b : CommentaryBlockBounds) : Prop :=
  (b.metadataEnd.isSome → b.metadataStart.isSome)
  ∧ (b.textEnd.isSome → b.textStart.isSome)
  ∧ (b.commentaryEnd.isSome → b.commentaryStart.isSome)
  ∧ (b.footnoteEnd.isSome → b.footnoteStart.isSome)

/-- Invariant of the section-boundary pass: ends have starts, and the
currently open section has a recorded start. -/
def SectionInv (st : CommentaryBlockBounds × SectionTag) : Prop :=
  EndsHaveStarts st.1
  ∧ (st.2 = .metadata → st.1.metadataStart.isSome)
  ∧ (st.2 = .text → st.1.textStart.isSome)
  ∧ (st.2 = .commentary → st.1.commentaryStart.isSome)
  ∧ (st.2 = .footnote → st.1.footnoteStart.isSome)

theorem sectionStep_inv (lines : List (List Char))
    (st : CommentaryBlockBounds × SectionTag) (i : Nat)
    (h : SectionInv st) : SectionInv (sectionStep lines st i) := by
  obtain ⟨⟨e1, e2, e3, e4⟩, t1, t2, t3, t4⟩ := h
  dsimp only [sectionStep]
  split_ifs with h1 h2 h3 h4 h5 h6 h7 h8 h9 h10 <;>
    refine ⟨⟨?_, ?_, ?_, ?_⟩, ?_, ?_, ?_, ?_⟩ <;>
    simp_all [SectionInv, EndsHaveStarts]

theorem sectionFold_inv (lines : List (List Char)) :
    ∀ (l : List Nat) (st : CommentaryBlockBounds × SectionTag),
      SectionInv st → SectionInv (l.foldl (sectionStep lines) st) := by
  intro l
  induction l with
  | nil => intro st h; exact h
  | cons j t ih =>
    intro st h
    rw [List.foldl_cons]
    exact ih _ (sectionStep_inv lines st j h)

theorem closeLast_inv (b : CommentaryBlockBounds) (cur : SectionTag) (e : Nat)
    (h : EndsHaveStarts b) : EndsHaveStarts (closeLast b cur e) := by
  obtain ⟨e1, e2, e3, e4⟩ := h
  dsimp only [closeLast]
  split_ifs with h1 h2 h3 h4 <;>
    refine ⟨?_, ?_, ?_, ?_⟩ <;> simp_all [EndsHaveStarts]

/-- C2 (amended): a recorded section end always has a recorded start, but a
section is closed only by its own delimiter, by its canonical successor
delimiter, or as the open section at block end — in a block whose four
delimiters appear in canonical order every started section gets its end
recorded at the next delimiter or the block end, while an out-of-order
delimiter (see the counterexample) can leave a started section with no
recorded end. -/
theorem C2_section_closing :
    (∀ (lines : List (List Char)) (cl : Nat) (b : CommentaryBlockBounds),
        getCurrentCommentaryBlockBounds lines cl = some b → EndsHaveStarts b)
    ∧ getCurrentCommentaryBlockBounds
        ["```commentary".data, "---metadata---".data, "t: v".data,
         "---text---".data, "orig".data, "---commentary---".data, "c".data,
         "---footnote---".data, "$[1]: d".data, "```".data] 6 =
      some { startLine := 0, endLine := 9,
             textStart := some 3, textEnd := some 5,
             commentaryStart := some 5, commentaryEnd := some 7,
             footnoteStart := some 7, footnoteEnd := some 9,
             metadataStart := some 1, metadataEnd := some 3 } := by
  refine ⟨fun lines cl b hb => ?_, by decide⟩
  unfold getCurrentCommentaryBlockBounds at hb
  cases hfs : findBlockStart lines cl cl with
  | none => rw [hfs] at hb; exact absurd hb (by simp)
  | some bs =>
    rw [hfs] at hb
    dsimp only at hb
    injection hb with hb
    rw [← hb]
    refine closeLast_inv _ _ _ ?_
    have := sectionFold_inv lines
      (List.range' (bs + 1) (findBlockEnd lines bs - (bs + 1)))
      ({ startLine := bs, endLine := findBlockEnd lines bs }, .start)
      ⟨⟨by simp, by simp, by simp, by simp⟩,
        by intro h; exact absurd h (by simp), by intro h; exact absurd h (by simp),
        by intro h; exact absurd h (by simp), by intro h; exact absurd h (by simp)⟩
    exact this.1

/-- C2 witness: the end-implies-start direction applied to the
counterexample's block, whose commentary section has a recorded end. -/
theorem C2_section_closing_witness :
    ({ startLine := 0, endLine := 5, commentaryStart := some 3,
       commentaryEnd := some 5, metadataStart := some 1 } :
      CommentaryBlockBounds).commentaryStart.isSome = true :=
  (C2_section_closing.1
    ["```commentary".data, "---metadata---".data, "title: x".data,
     "---commentary---".data, "hello".data, "```".data] 4
    { startLine := 0, endLine := 5, commentaryStart := some 3,
      commentaryEnd := some 5, metadataStart := some 1 } (by decide)).2.2.1
    (by decide)

/-! ## Claim C6 -/

theorem joinNl_nil : joinNl [] = [] := rfl

theorem joinNl_cons (x : List Char) (l : List (List Char)) :
    joinNl (x :: l) = x ++ ['\n'] ++ joinNl l := by
  simp [joinNl]

/-- On a delimiter line the parse step just switches the active section,
exactly as the labelling semantics does. -/
theorem parseBlockStep_delim (pb : ParsedBlock) (t : SectionTag)
    (line : List Char) (h : isDelimLine line = true) :
    parseBlockStep (pb, t) line = (pb, tagAfter t line) := by
  unfold isDelimLine at h
  dsimp only [parseBlockStep, tagAfter]
  split_ifs <;> simp_all

/-- Fold-fusion: the imperative accumulation of `parseBlockContent` agrees,
component by component, with concatenating the labelled lines of each
section. -/
theorem parseFold_spec :
    ∀ (lines : List (List Char)) (pb : ParsedBlock) (t : SectionTag),
      ((lines.foldl parseBlockStep (pb, t)).1.originalText =
        pb.originalText ++
          joinNl (((labeledFrom t lines).filter
            (fun p => p.1 = SectionTag.text)).map (·.2)))
      ∧ ((lines.foldl parseBlockStep (pb, t)).1.commentary =
        pb.commentary ++
          joinNl (((labeledFrom t lines).filter
            (fun p => p.1 = SectionTag.commentary)).map (·.2)))
      ∧ ((lines.foldl parseBlockStep (pb, t)).1.footnotes =
        pb.footnotes ++
          joinNl (((labeledFrom t lines).filter
            (fun p => p.1 = SectionTag.footnote)).map (·.2)))
      ∧ ((lines.foldl parseBlockStep (pb, t)).1.metadata =
        (((labeledFrom t lines).filter
            (fun p => p.1 = SectionTag.metadata)).map (·.2)).foldl metaStep
          pb.metadata) := by
  intro lines
  induction lines with
  | nil => intro pb t; simp [labeledFrom, joinNl]
  | cons line rest ih =>
    intro pb t
    rw [List.foldl_cons]
    by_cases hd : isDelimLine line = true
    · rw [parseBlockStep_delim pb t line hd]
      have hlab : labeledFrom t (line :: rest) =
          labeledFrom (tagAfter t line) rest := by
        conv_lhs => rw [labeledFrom]
        rw [if_pos hd]
      rw [hlab]
      exact ih pb (tagAfter t line)
    · have hd' : isDelimLine line = false := bool_ne_true hd
      have hlab : labeledFrom t (line :: rest) = (t, line) :: labeledFrom t rest := by
        conv_lhs => rw [labeledFrom]
        rw [if_neg (by simp [hd'])]
      have hstep : parseBlockStep (pb, t) line =
          (match t with
           | .text => ({ pb with originalText := pb.originalText ++ line ++ ['\n'] }, t)
           | .commentary => ({ pb with commentary := pb.commentary ++ line ++ ['\n'] }, t)
           | .footnote => ({ pb with footnotes := pb.footnotes ++ line ++ ['\n'] }, t)
           | .metadata => ({ pb with metadata := metaStep pb.metadata line }, t)
           | .start => (pb, t)) := by
        unfold isDelimLine at hd'
        simp only [Bool.or_eq_false_iff] at hd'
        dsimp only [parseBlockStep]
        rw [if_neg (by simp [hd'.1.1.1]), if_neg (by simp [hd'.1.1.2]),
          if_neg (by simp [hd'.1.2]), if_neg (by simp [hd'.2])]
        cases t <;> rfl
      rw [hlab, hstep]
      cases t with
      | start =>
        obtain ⟨i1, i2, i3, i4⟩ := ih pb .start
        simp only [List.filter_cons]
        simp [i1, i2, i3, i4]
      | text =>
        obtain ⟨i1, i2, i3, i4⟩ :=
          ih { pb with originalText := pb.originalText ++ (line ++ ['\n']) } .text
        simp only [List.filter_cons]
        simp [i1, i2, i3, i4, joinNl_cons]
      | commentary =>
        obtain ⟨i1, i2, i3, i4⟩ :=
          ih { pb with commentary := pb.commentary ++ (line ++ ['\n']) } .commentary
        simp only [List.filter_cons]
        simp [i1, i2, i3, i4, joinNl_cons]
      | footnote =>
        obtain ⟨i1, i2, i3, i4⟩ :=
          ih { pb with footnotes := pb.footnotes ++ (line ++ ['\n']) } .footnote
        simp only [List.filter_cons]
        simp [i1, i2, i3, i4, joinNl_cons]
      | metadata =>
        obtain ⟨i1, i2, i3, i4⟩ :=
          ih { pb with metadata := metaStep pb.metadata line } .metadata
        simp only [List.filter_cons]
        simp [i1, i2, i3, i4, joinNl_cons]

/-- C6 counterexample: a metadata line with the key `__proto__` matches the
key/value pattern, yet the assignment hits the inherited
`Object.prototype.__proto__` setter and is silently dropped — the claim
instead predicts a trimmed-scalar entry for it. -/
theorem C6_counterexample :
    (parseBlockContent "---metadata---\n__proto__: foo".data).metadata = [] := by
  decide

/-- C6 (amended): sectionizing discards delimiter lines, drops lines before
the first delimiter, and appends every other line with a trailing newline
to the active section; metadata lines are parsed as key/value (tags split
on commas and trimmed, other keys kept as trimmed scalars — except the key
`__proto__`, whose assignment hits the inherited `Object.prototype` setter
and is silently dropped) and non-matching metadata lines are ignored; a
block with only a `---commentary---` section yields empty original text
and empty metadata without error. -/
theorem C6_sectionizer :
    (∀ source : List Char,
      (parseBlockContent source).originalText =
        joinNl (sectionLines .text source)
      ∧ (parseBlockContent source).commentary =
        joinNl (sectionLines .commentary source)
      ∧ (parseBlockContent source).footnotes =
        joinNl (sectionLines .footnote source)
      ∧ (parseBlockContent source).metadata =
        (sectionLines .metadata source).foldl metaStep [])
    ∧ parseBlockContent "---commentary---\nhello".data =
        { originalText := [], commentary := "hello\n".data, footnotes := [],
          metadata := [] }
    ∧ (parseBlockContent "---metadata---\n__proto__: foo\ntitle: T".data).metadata =
        [("title".data, MetaVal.scalar "T".data)] := by
  refine ⟨fun source => ?_, by decide, by decide⟩
  obtain ⟨i1, i2, i3, i4⟩ :=
    parseFold_spec (splitLines source) ⟨[], [], [], []⟩ .start
  exact ⟨by simpa [parseBlockContent, sectionLines] using i1,
    by simpa [parseBlockContent, sectionLines] using i2,
    by simpa [parseBlockContent, sectionLines] using i3,
    by simpa [parseBlockContent, sectionLines] using i4⟩

/-- C6 witness: the labelling characterization of the commentary accumulator
on a block with junk before the first delimiter and all four sections. -/
theorem C6_sectionizer_witness :
    (parseBlockContent
      "junk\n---metadata---\ntitle: T\n---text---\nA\n---commentary---\nB".data).commentary =
      joinNl (sectionLines .commentary
        "junk\n---metadata---\ntitle: T\n---text---\nA\n---commentary---\nB".data) :=
  (C6_sectionizer.1
    "junk\n---metadata---\ntitle: T\n---text---\nA\n---commentary---\nB".data).2.1

/-! ## Lemmas about the reference scan (towards C1 and C4) -/

/-- Every occurrence reported by the scan lies at or after the scan
position plus the pending skip. -/
theorem scanRefsAux_ge :
    ∀ (s : List Char) (i skip : Nat) (r : RefOcc),
      r ∈ scanRefsAux s i skip → i + skip ≤ r.index := by
  intro s
  induction s with
  | nil => intro i skip r h; simp [scanRefsAux] at h
  | cons c rest ih =>
    intro i skip r h
    cases skip with
    | succ k =>
      have := ih (i + 1) k r h
      omega
    | zero =>
      rw [scanRefsAux] at h
      cases htry : tryRefAt (c :: rest) with
      | some ds =>
        rw [htry] at h
        rcases List.mem_cons.mp h with rfl | h
        · dsimp only
          omega
        · have := ih (i + 1) (ds.length + 2) r h
          omega
      | none =>
        rw [htry] at h
        have := ih (i + 1) 0 r h
        omega

/-- Every occurrence has positive match length. -/
theorem scanRefsAux_len :
    ∀ (s : List Char) (i skip : Nat) (r : RefOcc),
      r ∈ scanRefsAux s i skip → 1 ≤ r.len := by
  intro s
  induction s with
  | nil => intro i skip r h; simp [scanRefsAux] at h
  | cons c rest ih =>
    intro i skip r h
    cases skip with
    | succ k => exact ih (i + 1) k r h
    | zero =>
      rw [scanRefsAux] at h
      cases htry : tryRefAt (c :: rest) with
      | some ds =>
        rw [htry] at h
        rcases List.mem_cons.mp h with rfl | h
        · simp
        · exact ih (i + 1) (ds.length + 2) r h
      | none =>
        rw [htry] at h
        exact ih (i + 1) 0 r h

/-- A successful reference match consumes characters of the suffix:
digits plus the three delimiters all fit. -/
theorem tryRefAt_len {s ds : List Char} (h : tryRefAt s = some ds) :
    ds.length + 3 <= s.length := by
  unfold tryRefAt at h
  split at h
  · rename_i r
    dsimp only at h
    split at h
    · exact absurd h (by simp)
    · rename_i hne
      split at h
      · rename_i rest hdrop
        injection h with h
        subst h
        have hdl : (r.drop (r.takeWhile Char.isDigit).length).length =
            r.length - (r.takeWhile Char.isDigit).length := List.length_drop _ r
        rw [hdrop] at hdl
        have htk : (r.takeWhile Char.isDigit).length <= r.length :=
          (List.takeWhile_sublist Char.isDigit).length_le
        simp only [List.length_cons] at hdl
        simp only [List.length_cons]
        omega
      · exact absurd h (by simp)
  · exact absurd h (by simp)

/-- Every occurrence ends within the scanned text. -/
theorem scanRefsAux_bound :
    ∀ (s : List Char) (i skip : Nat) (r : RefOcc),
      r ∈ scanRefsAux s i skip → r.index + r.len ≤ i + s.length := by
  intro s
  induction s with
  | nil => intro i skip r h; simp [scanRefsAux] at h
  | cons c rest ih =>
    intro i skip r h
    cases skip with
    | succ k =>
      have := ih (i + 1) k r h
      simp only [List.length_cons]
      omega
    | zero =>
      rw [scanRefsAux] at h
      cases htry : tryRefAt (c :: rest) with
      | some ds =>
        rw [htry] at h
        rcases List.mem_cons.mp h with rfl | h
        · have := tryRefAt_len htry
          dsimp only
          simp only [List.length_cons] at this ⊢
          omega
        · have := ih (i + 1) (ds.length + 2) r h
          simp only [List.length_cons]
          omega
      | none =>
        rw [htry] at h
        have := ih (i + 1) 0 r h
        simp only [List.length_cons]
        omega

/-- Occurrences are reported in source order and never overlap. -/
theorem scanRefsAux_sep :
    ∀ (s : List Char) (i skip : Nat),
      (scanRefsAux s i skip).Chain' (fun a b => a.index + a.len ≤ b.index) := by
  intro s
  induction s with
  | nil => intro i skip; simp [scanRefsAux]
  | cons c rest ih =>
    intro i skip
    cases skip with
    | succ k => exact ih (i + 1) k
    | zero =>
      rw [scanRefsAux]
      cases htry : tryRefAt (c :: rest) with
      | some ds =>
        rw [List.chain'_cons']
        refine ⟨?_, ih (i + 1) (ds.length + 2)⟩
        intro b hb
        have hmem : b ∈ scanRefsAux rest (i + 1) (ds.length + 2) :=
          List.mem_of_mem_head? hb
        have := scanRefsAux_ge rest (i + 1) (ds.length + 2) b hmem
        dsimp only
        omega
      | none => exact ih (i + 1) 0

/-! ## Lemmas about sorting and first-occurrence order -/

/-- Sorting an already-sorted list (adjacent elements related by the
comparator) is the identity. -/
theorem sortBy_sorted {α} (le : α → α → Bool) :
    ∀ l : List α, l.Chain' (fun a b => le a b = true) → sortBy le l = l := by
  intro l
  induction l with
  | nil => intro _; rfl
  | cons x xs ih =>
    intro h
    have hxs : sortBy le xs = xs := ih h.tail
    show insertSorted le x (List.foldr (insertSorted le) [] xs) = x :: xs
    rw [show List.foldr (insertSorted le) [] xs = sortBy le xs from rfl, hxs]
    cases xs with
    | nil => rfl
    | cons y ys =>
      have hxy : le x y = true := (List.chain'_cons.mp h).1
      simp [insertSorted, hxy]

theorem dedupAux_append (l1 l2 : List Nat) : ∀ acc,
    dedupAux acc (l1 ++ l2) = dedupAux (dedupAux acc l1) l2 := by
  induction l1 with
  | nil => intro acc; rfl
  | cons n t ih =>
    intro acc
    rw [List.cons_append, dedupAux, dedupAux]
    exact ih _

theorem mem_dedupAux (m : Nat) : ∀ (l acc : List Nat),
    m ∈ dedupAux acc l ↔ m ∈ acc ∨ m ∈ l := by
  intro l
  induction l with
  | nil => intro acc; simp [dedupAux]
  | cons n t ih =>
    intro acc
    rw [dedupAux]
    by_cases hn : n ∈ acc
    · rw [if_pos hn, ih]
      simp only [List.mem_cons]
      constructor
      · rintro (h | h)
        · exact Or.inl h
        · exact Or.inr (Or.inr h)
      · rintro (h | rfl | h)
        · exact Or.inl h
        · exact Or.inl hn
        · exact Or.inr h
    · rw [if_neg hn, ih]
      simp only [List.mem_append, List.mem_cons, List.mem_singleton]
      tauto

theorem dedupAux_extends : ∀ (l acc : List Nat), ∃ t, dedupAux acc l = acc ++ t := by
  intro l
  induction l with
  | nil => intro acc; exact ⟨[], by simp [dedupAux]⟩
  | cons n t ih =>
    intro acc
    rw [dedupAux]
    by_cases hn : n ∈ acc
    · rw [if_pos hn]
      exact ih acc
    · rw [if_neg hn]
      obtain ⟨u, hu⟩ := ih (acc ++ [n])
      exact ⟨[n] ++ u, by rw [hu, List.append_assoc]⟩

theorem posOf_append (n : Nat) : ∀ (acc t : List Nat), n ∈ acc →
    posOf n (acc ++ t) = posOf n acc := by
  intro acc
  induction acc with
  | nil => intro t h; simp at h
  | cons m ms ih =>
    intro t h
    rw [List.cons_append, posOf, posOf]
    by_cases hm : m = n
    · rw [if_pos hm, if_pos hm]
    · rw [if_neg hm, if_neg hm]
      have hmem : n ∈ ms := by
        rcases List.mem_cons.mp h with rfl | h
        · exact absurd rfl hm
        · exact h
      rw [ih t hmem]

theorem getElem?_posOf (n : Nat) : ∀ l : List Nat, n ∈ l → l[posOf n l]? = some n := by
  intro l
  induction l with
  | nil => intro h; simp at h
  | cons m ms ih =>
    intro h
    rw [posOf]
    by_cases hm : m = n
    · rw [if_pos hm]
      simp [hm]
    · rw [if_neg hm]
      have hmem : n ∈ ms := by
        rcases List.mem_cons.mp h with rfl | h
        · exact absurd rfl hm
        · exact h
      simpa using ih hmem

/-! ## The resolver refinement (C1, C4) -/

/-- The in-place substring replacement of one occurrence, rewritten as an
append decomposition around the already-emitted prefix `A`. -/
theorem spliceText (A s : List Char) (p : Nat) (r : RefOcc) (rep : List Char)
    (hpR : p ≤ r.index) :
    (A ++ s.drop p).take ((r.index : Int) + ((A.length : Int) - (p : Int))).toNat
      ++ rep ++
      (A ++ s.drop p).drop
        ((r.index : Int) + ((A.length : Int) - (p : Int)) + (r.len : Int)).toNat
    = (A ++ (s.drop p).take (r.index - p) ++ rep) ++ s.drop (r.index + r.len) := by
  have ht1 : ((r.index : Int) + ((A.length : Int) - (p : Int))).toNat =
      A.length + (r.index - p) := by omega
  have ht2 : ((r.index : Int) + ((A.length : Int) - (p : Int)) +
      (r.len : Int)).toNat = A.length + ((r.index - p) + r.len) := by omega
  have htakeA : A.take (A.length + (r.index - p)) = A :=
    List.take_of_length_le (by omega)
  have htake : (A ++ s.drop p).take (A.length + (r.index - p)) =
      A ++ (s.drop p).take (r.index - p) := by
    rw [List.take_append_eq_append_take, htakeA, Nat.add_sub_cancel_left]
  have hdropA : A.drop (A.length + ((r.index - p) + r.len)) = [] :=
    List.drop_eq_nil_of_le (by omega)
  have hdrop : (A ++ s.drop p).drop (A.length + ((r.index - p) + r.len)) =
      s.drop (r.index + r.len) := by
    rw [List.drop_append_eq_append_drop, hdropA, Nat.add_sub_cancel_left,
      List.nil_append, List.drop_drop]
    congr 1
    omega
  rw [ht1, ht2, htake, hdrop]

/-- The running length delta after one replacement equals the length of the
newly emitted prefix minus the new source position. -/
theorem spliceOffset (A s : List Char) (p : Nat) (r : RefOcc) (rep : List Char)
    (hpR : p ≤ r.index) (hb : r.index + r.len ≤ s.length) :
    ((A.length : Int) - (p : Int)) + (rep.length : Int) - (r.len : Int) =
    (((A ++ (s.drop p).take (r.index - p) ++ rep).length : Int)) -
      (((r.index + r.len : Nat)) : Int) := by
  have hql : r.index - p ≤ (s.drop p).length := by
    rw [List.length_drop]; omega
  have hlen : (A ++ (s.drop p).take (r.index - p) ++ rep).length =
      A.length + (r.index - p) + rep.length := by
    simp [List.length_take]
    omega
  rw [hlen]
  push_cast
  omega

/-- The key invariant of the `references.forEach` loop: starting from the
state reached after processing the prefix `pre` (first-seen numbers
`dedupFirst`, emitted text `A`, source position `p`, running offset
`A.length - p`), the loop produces exactly the spec-side result: resolved
bodies in first-occurrence order, plus the single left-to-right placeholder
rewrite of the remaining occurrences. -/
theorem pfFold_spec (defs : List (Nat × List Char)) (s : List Char)
    (refs : List RefOcc)
    (hpw : refs.Pairwise (fun a b => a.index + a.len ≤ b.index))
    (hlen1 : ∀ r ∈ refs, 1 ≤ r.len)
    (hbound : ∀ r ∈ refs, r.index + r.len ≤ s.length) :
    ∀ (rs pre : List RefOcc) (A : List Char) (p : Nat),
      refs = pre ++ rs →
      (∀ x ∈ rs.head?, p ≤ x.index) →
      (∀ a ∈ dedupFirst (pre.map (·.num)), firstIndexOf refs a < p) →
      (dedupFirst (pre.map (·.num))).Chain'
        (fun a b => firstIndexOf refs a < firstIndexOf refs b) →
      ((List.foldl (pfStep defs refs)
          ⟨(dedupFirst (pre.map (·.num))).map (contentFor defs),
           dedupFirst (pre.map (·.num)), A ++ s.drop p,
           (A.length : Int) - (p : Int)⟩ rs).footnotesList =
        (dedupFirst (refs.map (·.num))).map (contentFor defs))
      ∧ ((List.foldl (pfStep defs refs)
          ⟨(dedupFirst (pre.map (·.num))).map (contentFor defs),
           dedupFirst (pre.map (·.num)), A ++ s.drop p,
           (A.length : Int) - (p : Int)⟩ rs).text =
        A ++ rewriteFrom s
          (fun n => posOf n (dedupFirst (refs.map (·.num))) + 1) p rs) := by
  intro rs
  induction rs with
  | nil =>
    intro pre A p hsplit _ _ _
    have hpre : pre = refs := by simpa using hsplit.symm
    subst hpre
    exact ⟨rfl, rfl⟩
  | cons r rs' ih =>
    intro pre A p hsplit hhead hkey hchain
    have hpR : p ≤ r.index := hhead r rfl
    have hrmem : r ∈ refs := by
      rw [hsplit]
      exact List.mem_append_right pre (List.mem_cons_self r rs')
    have hlenr : 1 ≤ r.len := hlen1 r hrmem
    have hboundr : r.index + r.len ≤ s.length := hbound r hrmem
    have hpw2 : (r :: rs').Pairwise (fun a b => a.index + a.len ≤ b.index) := by
      rw [hsplit] at hpw
      exact (List.pairwise_append.mp hpw).2.1
    have hsplit' : refs = (pre ++ [r]) ++ rs' := by
      rw [hsplit]; simp
    have hhead' : ∀ x ∈ rs'.head?, r.index + r.len ≤ x.index := by
      intro x hx
      exact (List.pairwise_cons.mp hpw2).1 x (List.mem_of_mem_head? hx)
    have hfio : r.num ∉ dedupFirst (pre.map (·.num)) →
        firstIndexOf refs r.num = r.index := by
      intro hnew
      have hnotpre : r.num ∉ pre.map (·.num) := by
        intro hmem
        have hmem2 : r.num ∈ dedupAux [] (pre.map (·.num)) :=
          (mem_dedupAux r.num (pre.map (·.num)) []).mpr (Or.inr hmem)
        exact hnew hmem2
      have hnone : pre.find? (fun q => q.num = r.num) = none := by
        rw [List.find?_eq_none]
        intro x hx
        simp only [decide_eq_true_eq]
        intro hc
        exact hnotpre (List.mem_map.mpr ⟨x, hx, hc⟩)
      rw [firstIndexOf, hsplit, List.find?_append, hnone]
      simp [List.find?_cons]
    rw [List.foldl_cons]
    by_cases hmem : r.num ∈ dedupFirst (pre.map (·.num))
    -- ===== repeated occurrence: display index reused =====
    · have husn : dedupFirst ((pre ++ [r]).map (·.num)) =
          dedupFirst (pre.map (·.num)) := by
        rw [List.map_append, dedupFirst, dedupAux_append,
          show (([r] : List RefOcc).map (·.num)) = [r.num] from rfl,
          dedupAux, dedupAux, ← dedupFirst, if_pos hmem]
      have hkey' : ∀ a ∈ dedupFirst ((pre ++ [r]).map (·.num)),
          firstIndexOf refs a < r.index + r.len := by
        intro a ha
        rw [husn] at ha
        have := hkey a ha
        omega
      have hchain'' : (dedupFirst ((pre ++ [r]).map (·.num))).Chain'
          (fun a b => firstIndexOf refs a < firstIndexOf refs b) := by
        rw [husn]; exact hchain
      have hposr : posOf r.num (dedupFirst (refs.map (·.num))) =
          posOf r.num (dedupFirst (pre.map (·.num))) := by
        obtain ⟨t, ht⟩ := dedupAux_extends (rs'.map (·.num))
          (dedupFirst (pre.map (·.num)))
        rw [hsplit, show pre ++ r :: rs' = (pre ++ [r]) ++ rs' by simp,
          List.map_append, dedupFirst, dedupAux_append, ← dedupFirst, husn, ht]
        exact posOf_append r.num _ t hmem
      have hsorted : sortBy
          (fun a b => firstIndexOf refs a ≤ firstIndexOf refs b)
          (dedupFirst (pre.map (·.num))) = dedupFirst (pre.map (·.num)) := by
        apply sortBy_sorted
        refine hchain.imp ?_
        intro a b hab
        simpa using Nat.le_of_lt hab
      have hstep : pfStep defs refs
          ⟨(dedupFirst (pre.map (·.num))).map (contentFor defs),
           dedupFirst (pre.map (·.num)), A ++ s.drop p,
           (A.length : Int) - (p : Int)⟩ r =
          ⟨(dedupFirst ((pre ++ [r]).map (·.num))).map (contentFor defs),
           dedupFirst ((pre ++ [r]).map (·.num)),
           (A ++ (s.drop p).take (r.index - p) ++
             placeholder (posOf r.num (dedupFirst (refs.map (·.num))) + 1)) ++
             s.drop (r.index + r.len),
           ((A ++ (s.drop p).take (r.index - p) ++
             placeholder (posOf r.num (dedupFirst (refs.map (·.num))) + 1)).length :
               Int) - (((r.index + r.len : Nat)) : Int)⟩ := by
        rw [husn, hposr]
        dsimp only [pfStep]
        rw [if_pos hmem]
        dsimp only
        rw [hsorted]
        congr 1
        · exact spliceText A s p r _ hpR
        · exact spliceOffset A s p r _ hpR hboundr
      rw [hstep]
      obtain ⟨ihf, iht⟩ := ih (pre ++ [r])
        (A ++ (s.drop p).take (r.index - p) ++
          placeholder (posOf r.num (dedupFirst (refs.map (·.num))) + 1))
        (r.index + r.len) hsplit' hhead' hkey' hchain''
      refine ⟨ihf, ?_⟩
      rw [iht]
      rw [show rewriteFrom s
          (fun n => posOf n (dedupFirst (refs.map (·.num))) + 1) p (r :: rs') =
          (s.drop p).take (r.index - p) ++
            placeholder (posOf r.num (dedupFirst (refs.map (·.num))) + 1) ++
            rewriteFrom s (fun n => posOf n (dedupFirst (refs.map (·.num))) + 1)
              (r.index + r.len) rs' from rfl]
      simp [List.append_assoc]
    -- ===== first occurrence: new display index allocated =====
    · have husn : dedupFirst ((pre ++ [r]).map (·.num)) =
          dedupFirst (pre.map (·.num)) ++ [r.num] := by
        rw [List.map_append, dedupFirst, dedupAux_append,
          show (([r] : List RefOcc).map (·.num)) = [r.num] from rfl,
          dedupAux, dedupAux, ← dedupFirst, if_neg hmem]
      have hkey' : ∀ a ∈ dedupFirst ((pre ++ [r]).map (·.num)),
          firstIndexOf refs a < r.index + r.len := by
        intro a ha
        rw [husn] at ha
        rcases List.mem_append.mp ha with ha | ha
        · have := hkey a ha
          omega
        · have har : a = r.num := by simpa using ha
          subst har
          rw [hfio hmem]
          omega
      have hchain'' : (dedupFirst ((pre ++ [r]).map (·.num))).Chain'
          (fun a b => firstIndexOf refs a < firstIndexOf refs b) := by
        rw [husn, List.chain'_append]
        refine ⟨hchain, List.chain'_singleton _, ?_⟩
        intro x hx y hy
        have hxm : x ∈ dedupFirst (pre.map (·.num)) := List.mem_of_mem_getLast? hx
        have hyr : r.num = y := by simpa using hy
        subst hyr
        have := hkey x hxm
        rw [hfio hmem]
        omega
      have hposr : posOf r.num (dedupFirst (refs.map (·.num))) =
          posOf r.num (dedupFirst (pre.map (·.num)) ++ [r.num]) := by
        obtain ⟨t, ht⟩ := dedupAux_extends (rs'.map (·.num))
          (dedupFirst (pre.map (·.num)) ++ [r.num])
        rw [hsplit, show pre ++ r :: rs' = (pre ++ [r]) ++ rs' by simp,
          List.map_append, dedupFirst, dedupAux_append, ← dedupFirst, husn, ht]
        exact posOf_append r.num _ t (List.mem_append_right _ (by simp))
      have hsorted : sortBy
          (fun a b => firstIndexOf refs a ≤ firstIndexOf refs b)
          (dedupFirst (pre.map (·.num)) ++ [r.num]) =
          dedupFirst (pre.map (·.num)) ++ [r.num] := by
        apply sortBy_sorted
        have hch := hchain''
        rw [husn] at hch
        refine hch.imp ?_
        intro a b hab
        simpa using Nat.le_of_lt hab
      have hstep : pfStep defs refs
          ⟨(dedupFirst (pre.map (·.num))).map (contentFor defs),
           dedupFirst (pre.map (·.num)), A ++ s.drop p,
           (A.length : Int) - (p : Int)⟩ r =
          ⟨(dedupFirst ((pre ++ [r]).map (·.num))).map (contentFor defs),
           dedupFirst ((pre ++ [r]).map (·.num)),
           (A ++ (s.drop p).take (r.index - p) ++
             placeholder (posOf r.num (dedupFirst (refs.map (·.num))) + 1)) ++
             s.drop (r.index + r.len),
           ((A ++ (s.drop p).take (r.index - p) ++
             placeholder (posOf r.num (dedupFirst (refs.map (·.num))) + 1)).length :
               Int) - (((r.index + r.len : Nat)) : Int)⟩ := by
        rw [husn, hposr]
        dsimp only [pfStep]
        rw [if_neg hmem]
        dsimp only
        rw [hsorted]
        congr 1
        · simp
        · exact spliceText A s p r _ hpR
        · exact spliceOffset A s p r _ hpR hboundr
      rw [hstep]
      obtain ⟨ihf, iht⟩ := ih (pre ++ [r])
        (A ++ (s.drop p).take (r.index - p) ++
          placeholder (posOf r.num (dedupFirst (refs.map (·.num))) + 1))
        (r.index + r.len) hsplit' hhead' hkey' hchain''
      refine ⟨ihf, ?_⟩
      rw [iht]
      rw [show rewriteFrom s
          (fun n => posOf n (dedupFirst (refs.map (·.num))) + 1) p (r :: rs') =
          (s.drop p).take (r.index - p) ++
            placeholder (posOf r.num (dedupFirst (refs.map (·.num))) + 1) ++
            rewriteFrom s (fun n => posOf n (dedupFirst (refs.map (·.num))) + 1)
              (r.index + r.len) rs' from rfl]
      simp [List.append_assoc]

/-- The source resolver agrees with the spec-side resolver on every input:
first occurrences allocate display indices in source order, repeats reuse
them, and every occurrence is replaced by the placeholder of its display
index in a single left-to-right rewrite. -/
theorem processFootnotes_eq_resolveSpec :
    ∀ c d : List Char, processFootnotes c d = resolveSpec c d := by
  intro c d
  haveI : IsTrans RefOcc (fun a b => a.index + a.len ≤ b.index) :=
    ⟨fun a b e h1 h2 => by omega⟩
  have hchain : (scanRefs c).Chain' (fun a b => a.index + a.len ≤ b.index) :=
    scanRefsAux_sep c 0 0
  have hpw : (scanRefs c).Pairwise (fun a b => a.index + a.len ≤ b.index) :=
    List.chain'_iff_pairwise.mp hchain
  have hlen1 : ∀ r ∈ scanRefs c, 1 ≤ r.len := fun r hr =>
    scanRefsAux_len c 0 0 r hr
  have hbound : ∀ r ∈ scanRefs c, r.index + r.len ≤ c.length := fun r hr => by
    have := scanRefsAux_bound c 0 0 r hr
    omega
  have hsort : sortBy (fun a b => a.index ≤ b.index) (scanRefs c) = scanRefs c := by
    apply sortBy_sorted
    refine hchain.imp ?_
    intro a b hab
    simp only [decide_eq_true_eq]
    omega
  obtain ⟨h1, h2⟩ := pfFold_spec (buildDefsMap d) c (scanRefs c) hpw hlen1 hbound
    (scanRefs c) [] [] 0 (by simp) (fun x _ => Nat.zero_le _)
    (by intro a ha; exact absurd ha (by simp [dedupFirst, dedupAux]))
    (by simp [dedupFirst, dedupAux])
  simp only [List.map_nil, List.length_nil, Nat.cast_zero,
    show dedupFirst ([] : List Nat) = [] from rfl, List.nil_append,
    List.drop_zero] at h1 h2
  have hstate : (⟨[], [], c, (0 : Int) - (0 : Int)⟩ : PFState) =
      ⟨[], [], c, 0⟩ := by norm_num
  rw [hstate] at h1 h2
  unfold processFootnotes resolveSpec displayOrder
  rw [hsort]
  dsimp only
  simp only [Prod.mk.injEq]
  exact ⟨h2, h1⟩

/-! ## Claim C1 -/

/-- C1: Scenario A resolves to display order [second, first] with the
placeholder text predicted by the spec, and in general the source resolver
equals the spec-side resolver: the first occurrence of each distinct
reference number allocates the next display index in source order, later
occurrences reuse it, and every occurrence is replaced by the placeholder
of its display index under a running length delta. -/
theorem C1_footnote_resolution :
    (processFootnotes "See $[2] and $[1]. Also $[2].".data
        "$[1]: first\n$[2]: second".data =
      ("See \x7b\x7bfnref:1\x7d\x7d and \x7b\x7bfnref:2\x7d\x7d. Also \x7b\x7bfnref:1\x7d\x7d.".data,
       ["second".data, "first".data]))
    ∧ ∀ c d : List Char, processFootnotes c d = resolveSpec c d :=
  ⟨by decide, processFootnotes_eq_resolveSpec⟩

/-- C1 witness: the refinement applied to a concrete commentary with a
duplicate reference and a missing definition. -/
theorem C1_footnote_resolution_witness :
    processFootnotes "a $[3] b $[1] c $[3]".data "$[1]: one".data =
      resolveSpec "a $[3] b $[1] c $[3]".data "$[1]: one".data :=
  C1_footnote_resolution.2 "a $[3] b $[1] c $[3]".data "$[1]: one".data

/-! ## Claim C4 -/

/-- C4 counterexample: the synthetic body for an unresolved reference is
capitalized "Missing footnote definition for 5", not the claimed lowercase
"missing footnote definition for 5". -/
theorem C4_counterexample :
    (processFootnotes "Claim $[5].".data "".data).2 ≠
      ["missing footnote definition for 5".data] := by
  decide

/-- C4 (amended): a commentary reference with no matching definition still
occupies a display slot whose content is exactly the synthetic string
"Missing footnote definition for N" (capital M); resolution never fails or
drops the reference.  Scenario B yields exactly one resolved footnote. -/
theorem C4_missing_definition :
    (processFootnotes "Claim $[5].".data "".data =
      ("Claim \x7b\x7bfnref:1\x7d\x7d.".data,
       ["Missing footnote definition for 5".data]))
    ∧ ∀ (c d : List Char) (n : Nat), n ∈ (scanRefs c).map (·.num) →
        mapGet (buildDefsMap d) n = none →
        ((processFootnotes c d).2)[posOf n (displayOrder c)]? =
          some (missingMsg n) := by
  refine ⟨by decide, fun c d n hn hget => ?_⟩
  have heq : (processFootnotes c d).2 =
      (displayOrder c).map (contentFor (buildDefsMap d)) := by
    rw [processFootnotes_eq_resolveSpec]
    rfl
  have hmem : n ∈ displayOrder c := by
    unfold displayOrder dedupFirst
    exact (mem_dedupAux n _ []).mpr (Or.inr hn)
  rw [heq]
  rw [List.getElem?_map, getElem?_posOf n (displayOrder c) hmem]
  simp [contentFor, hget]

/-- C4 witness: the missing-definition slot of Scenario B, via the general
characterization. -/
theorem C4_missing_definition_witness :
    ((processFootnotes "Claim $[5].".data "".data).2)[posOf 5
        (displayOrder "Claim $[5].".data)]? =
      some (missingMsg 5) :=
  C4_missing_definition.2 "Claim $[5].".data "".data 5 (by decide) (by decide)
